import Mathlib

set_option maxRecDepth 10000
set_option maxHeartbeats 1000000

namespace ApplyEdits

/-- Character-list model of Rust string slices: a string is its list of characters. -/
abbrev Str := List Char

/-- Whitespace test backing the Rust trim family (the ASCII subset relevant to this code). -/
def isWs (c : Char) : Bool := c = ' ' || c = '\t' || c = '\n' || c = '\r'

/-- Rust str::trim_start. -/
def rsTrimStart (s : Str) : Str := s.dropWhile isWs

/-- Rust str::trim_end. -/
def rsTrimEnd (s : Str) : Str := (s.reverse.dropWhile isWs).reverse

/-- Rust str::trim. -/
def rsTrim (s : Str) : Str := rsTrimEnd (rsTrimStart s)

/-- Split a string at every newline character, keeping all pieces (including empty ones). -/
def splitNl : Str → List Str
  | [] => [[]]
  | c :: t =>
    if c = '\n' then [] :: splitNl t
    else
      match splitNl t with
      | [] => [[c]]
      | h :: r => (c :: h) :: r

/-- Drop one trailing carriage return from a line (Rust lines treats "\r\n" as one break). -/
def stripCr (l : Str) : Str := if l.getLast? = some '\r' then l.dropLast else l

/-- Piece post-processing of Rust str::lines: every piece except the final one
was newline-terminated, so it loses one trailing CR; the final piece is dropped
when empty and otherwise kept whole (Rust strips "\r" only after a "\n"). -/
def rsLinesAux : List Str → List Str
  | [] => []
  | [p] => if p = [] then [] else [p]
  | p :: ps => stripCr p :: rsLinesAux ps

/-- Rust str::lines. -/
def rsLines (s : Str) : List Str := rsLinesAux (splitNl s)

/-- Join lines with a single newline separator (Rust slice join("\n")). -/
def joinNl : List Str → Str
  | [] => []
  | [l] => l
  | l :: ls => l ++ '\n' :: joinNl ls

/-- Whether a string ends with a newline (Rust str::ends_with('\n')). -/
def endsNl (s : Str) : Bool := s.getLast? = some '\n'

/-- A run of n space characters. -/
def spacesN (n : Nat) : Str := List.replicate n ' '

/-- Whether s starts with pat (Rust str::starts_with for literal patterns). -/
def startsWith : Str → Str → Bool
  | _, [] => true
  | [], _ :: _ => false
  | c :: t, d :: u => c = d && startsWith t u

/-- Rust str::find for literal patterns: character index of the first occurrence. -/
def findSub : Str → Str → Option Nat
  | [], pat => if startsWith [] pat then some 0 else none
  | c :: t, pat =>
    if startsWith (c :: t) pat then some 0
    else (findSub t pat).map (· + 1)

/-- Rust str::contains for literal patterns. -/
def containsSub (s pat : Str) : Bool := (findSub s pat).isSome

/-- Non-overlapping occurrence counting with explicit fuel; each step consumes
at least one character, so fuel equal to the string length is always enough
(adequacy is proved below). -/
def countF : Nat → Str → Str → Nat
  | 0, _, _ => 0
  | fuel + 1, s, pat =>
    match s with
    | [] => 0
    | c :: t =>
      if pat ≠ [] ∧ startsWith (c :: t) pat then
        countF fuel ((c :: t).drop pat.length) pat + 1
      else
        countF fuel t pat

/-- Non-overlapping occurrence count for a non-empty pattern (Rust str::matches().count()). -/
def countNE (s pat : Str) : Nat := countF s.length s pat

/-- matcher.rs count_occurrences (Rust str::matches(search).count(), including the
empty-pattern convention). -/
def count_occurrences (content search : Str) : Nat :=
  if search = [] then content.length + 1 else countNE content search

/-- Non-overlapping replace-all with explicit fuel (adequacy proved below). -/
def replaceAllF : Nat → Str → Str → Str → Str
  | 0, s, _, _ => s
  | fuel + 1, s, pat, rep =>
    match s with
    | [] => []
    | c :: t =>
      if pat ≠ [] ∧ startsWith (c :: t) pat then
        rep ++ replaceAllF fuel ((c :: t).drop pat.length) pat rep
      else
        c :: replaceAllF fuel t pat rep

/-- Non-overlapping replace-all for a non-empty pattern. -/
def replaceAllNE (s pat rep : Str) : Str := replaceAllF s.length s pat rep

/-- matcher.rs replace_all (Rust str::replace, including the empty-pattern convention). -/
def replace_all (content search rep : Str) : Str :=
  if search = [] then rep ++ (content.map (fun c => c :: rep)).flatten
  else replaceAllNE content search rep

/-- matcher.rs find_literal. -/
def find_literal (content search : Str) : Option Nat := findSub content search

/-- matcher.rs replace_first. -/
def replace_first (content search rep : Str) : Option Str :=
  (findSub content search).map (fun pos =>
    content.take pos ++ rep ++ content.drop (pos + search.length))

/-- Index of the first element of a line list containing the anchor. -/
def findIdxCont (anchor : Str) : List Str → Option Nat
  | [] => none
  | l :: r => if containsSub l anchor then some 0 else (findIdxCont anchor r).map (· + 1)

/-- matcher.rs find_line_with_anchor (1-indexed). -/
def find_line_with_anchor (content anchor : Str) : Option Nat :=
  (findIdxCont anchor (rsLines content)).map (· + 1)

/-- matcher.rs normalize_indentation (renamed): trim every line fully and rejoin. -/
def normalizeIndent (s : Str) : Str := joinNl ((rsLines s).map rsTrim)

/-- matcher.rs FindResult. -/
inductive FindResult
  | exact (pos : Nat)
  | normalizedMatch (warning : String) (lineNumber : Nat)
  | notFound
deriving DecidableEq, Repr

/-- The warning text produced for a normalized match at a 1-indexed line. -/
def normWarning (line : Nat) : String :=
  "Exact match failed due to indentation differences. Found matching content at line "
    ++ toString line ++ " with different whitespace."

/-- First 0-based window start at which the trimmed content window equals the
(already trimmed) search lines. -/
def findNormWindow (contentLines searchLines : List Str) : Option Nat :=
  (List.range contentLines.length).find? (fun start =>
    decide (start + searchLines.length ≤ contentLines.length) &&
    (((contentLines.drop start).take searchLines.length).zip searchLines).all
      (fun p => rsTrim p.1 == p.2))

/-- matcher.rs find_with_normalization. -/
def find_with_normalization (content search : Str) : FindResult :=
  match findSub content search with
  | some pos => .exact pos
  | none =>
    let searchLines := rsLines (normalizeIndent search)
    if searchLines = [] then .notFound
    else
      match findNormWindow (rsLines content) searchLines with
      | some start => .normalizedMatch (normWarning (start + 1)) (start + 1)
      | none => .notFound

/-- matcher.rs extract_lines. -/
def extract_lines (content : Str) (startLine lineCount : Nat) : Str :=
  joinNl (((rsLines content).drop (startLine - 1)).take lineCount)

/-- One line of matcher.rs adjust_indentation (renamed adjustIndent): shift lines whose
leading whitespace is at least the caller's indent. -/
def adjustIndentLine (fromIndent toIndent : Nat) (line : Str) : Str :=
  let lineIndent := line.length - (rsTrimStart line).length
  if fromIndent ≤ lineIndent then
    spacesN (toIndent + (lineIndent - fromIndent)) ++ rsTrimStart line
  else line

/-- matcher.rs adjust_indentation (renamed). -/
def adjustIndent (text : Str) (fromIndent toIndent : Nat) : Str :=
  joinNl ((rsLines text).map (adjustIndentLine fromIndent toIndent))

/-- matcher.rs replace_with_normalization. -/
def replace_with_normalization (content search rep : Str) : Option (Str × String) :=
  match find_with_normalization content search with
  | .exact pos =>
    some (content.take pos ++ rep ++ content.drop (pos + search.length), "Exact match")
  | .normalizedMatch warning lineNumber =>
    let searchLineCount := (rsLines search).length
    let actualSearch := extract_lines content lineNumber searchLineCount
    let searchFirst := (rsLines search).headD []
    let actualFirst := (rsLines actualSearch).headD []
    let searchIndent := searchFirst.length - (rsTrimStart searchFirst).length
    let actualIndent := actualFirst.length - (rsTrimStart actualFirst).length
    let adjusted := if actualIndent ≠ searchIndent then adjustIndent rep searchIndent actualIndent else rep
    match findSub content actualSearch with
    | some pos =>
      some (content.take pos ++ adjusted ++ content.drop (pos + actualSearch.length), warning)
    | none => none
  | .notFound => none

/-- Levenshtein edit distance with explicit fuel; every recursive call lowers
the combined length, so the combined length is always enough fuel. -/
def levF : Nat → Str → Str → Nat
  | _, [], ys => ys.length
  | _, x :: xs, [] => (x :: xs).length
  | 0, _ :: _, _ :: _ => 0
  | fuel + 1, x :: xs, y :: ys =>
    if x = y then levF fuel xs ys
    else 1 + min (levF fuel xs (y :: ys)) (min (levF fuel (x :: xs) ys) (levF fuel xs ys))

/-- Levenshtein edit distance over character lists. -/
def levDist (a b : Str) : Nat := levF (a.length + b.length) a b

/-- strsim normalized_levenshtein: similarity in [0,1].  The f64 value
1.0 - dist/maxLen is modelled as the exact rational (maxLen - dist)/maxLen,
built with Rat.divInt so that it evaluates by kernel reduction. -/
def normalized_levenshtein (a b : Str) : ℚ :=
  if a = [] ∧ b = [] then 1
  else Rat.divInt ((max a.length b.length : Int) - levDist a b) (max a.length b.length : Int)

/-- error.rs ClosestMatch. -/
structure ClosestMatch where
  line : Nat
  similarity : ℚ
  content : Str
  contextBefore : List Str
  contextAfter : List Str
deriving DecidableEq, Repr

/-- One sliding-window candidate of matcher.rs find_closest_matches. -/
def candidateAt (contentLines : List Str) (search : Str) (windowSize start : Nat) : ClosestMatch :=
  let endIdx := min (start + windowSize) contentLines.length
  let window := joinNl ((contentLines.drop start).take (endIdx - start))
  { line := start + 1
    similarity := normalized_levenshtein search window
    content := window
    contextBefore := (contentLines.drop (start - 2)).take (start - (start - 2))
    contextAfter := (contentLines.drop endIdx).take (min (endIdx + 2) contentLines.length - endIdx) }

/-- Stable insertion into a similarity-descending list. -/
def insertDesc (x : ClosestMatch) : List ClosestMatch → List ClosestMatch
  | [] => [x]
  | y :: r => if y.similarity < x.similarity then x :: y :: r else y :: insertDesc x r

/-- Stable sort by similarity descending (Rust slice::sort_by on the reversed comparator). -/
def sortDesc : List ClosestMatch → List ClosestMatch
  | [] => []
  | x :: r => insertDesc x (sortDesc r)

/-- matcher.rs find_closest_matches. -/
def find_closest_matches (content search : Str) (threshold : ℚ) (maxResults : Nat) :
    List ClosestMatch :=
  let searchLines := rsLines search
  let contentLines := rsLines content
  if searchLines = [] ∨ contentLines = [] then []
  else
    let cands := (List.range contentLines.length).map
      (candidateAt contentLines search searchLines.length)
    (sortDesc (cands.filter (fun m => threshold ≤ m.similarity))).take maxResults

/-- matcher.rs truncate_preview. -/
def truncate_preview (s : Str) (maxLen : Nat) : Str :=
  if s.length ≤ maxLen then s else s.take (maxLen - 3) ++ ('.' :: '.' :: '.' :: [])

/-- matcher.rs byte_pos_to_line (character-position variant in this model). -/
def byte_pos_to_line (content : Str) (pos : Nat) : Nat :=
  max (rsLines (content.take pos)).length 1

/-- matcher.rs get_affected_lines. -/
def get_affected_lines (content : Str) (pos oldLen : Nat) : Nat × Nat :=
  (byte_pos_to_line content pos, byte_pos_to_line content (min (pos + oldLen) content.length))

/-- Generic builder mirroring the indexed for-loops of matcher.rs: the j-th line
contributes the chunk f j l. -/
def buildIdx (f : Nat → Str → Str) : Nat → List Str → Str
  | _, [] => []
  | j, l :: r => f j l ++ buildIdx f (j + 1) r

/-- Per-line chunk of matcher.rs insert_after_line. -/
def insertAfterChunk (anchorIdx total : Nat) (newContent : Str) (j : Nat) (l : Str) : Str :=
  l ++ (if j ≤ anchorIdx ∨ j < total - 1 then ['\n'] else [])
    ++ (if j = anchorIdx then newContent ++ ['\n'] else [])

/-- matcher.rs insert_after_line. -/
def insert_after_line (content anchor newContent : Str) : Option (Str × Nat) :=
  let lines := rsLines content
  match findIdxCont anchor lines with
  | none => none
  | some i =>
    let result := buildIdx (insertAfterChunk i lines.length newContent) 0 lines
    let result := if endsNl content ∧ ¬ endsNl result then result ++ ['\n'] else result
    some (result, i + 2)

/-- Per-line chunk of matcher.rs insert_before_line. -/
def insertBeforeChunk (anchorIdx total : Nat) (newContent : Str) (j : Nat) (l : Str) : Str :=
  (if j = anchorIdx then newContent ++ ['\n'] else []) ++ l
    ++ (if j < total - 1 then ['\n'] else [])

/-- matcher.rs insert_before_line. -/
def insert_before_line (content anchor newContent : Str) : Option (Str × Nat) :=
  let lines := rsLines content
  match findIdxCont anchor lines with
  | none => none
  | some i =>
    let result := buildIdx (insertBeforeChunk i lines.length newContent) 0 lines
    let result := if endsNl content ∧ ¬ endsNl result then result ++ ['\n'] else result
    some (result, i + 1)

/-- matcher.rs insert_at_line. -/
def insert_at_line (content : Str) (lineNum : Nat) (newContent : Str) : Option Str :=
  let lines := rsLines content
  if lineNum = 0 ∨ lines.length + 1 < lineNum then none
  else
    let insertIndex := lineNum - 1
    let base := buildIdx (insertBeforeChunk insertIndex lines.length newContent) 0 lines
    let withEnd :=
      if lines.length ≤ insertIndex then
        (if base ≠ [] ∧ ¬ endsNl base then base ++ ['\n'] else base) ++ newContent
      else base
    some (if endsNl content ∧ ¬ endsNl withEnd then withEnd ++ ['\n'] else withEnd)

/-- Per-line chunk of matcher.rs delete_line_range (0-indexed bounds, inclusive). -/
def deleteChunk (startIdx endIdx total : Nat) (i : Nat) (l : Str) : Str :=
  if i < startIdx ∨ endIdx < i then
    l ++ (if i < total - 1 ∧ ¬ (startIdx ≤ i ∧ i < endIdx) then ['\n'] else [])
  else []

/-- The "\n\n\n" pattern. -/
def nl3 : Str := '\n' :: '\n' :: '\n' :: []

/-- The "\n\n" replacement. -/
def nl2 : Str := '\n' :: '\n' :: []

/-- The while-loop of matcher.rs delete_line_range that repeatedly replaces
"\n\n\n" by "\n\n" until none is left, with explicit fuel.  Each replacement
pass strictly shortens the string, so fuel equal to the string length always
reaches the loop's fixed point (proved below). -/
def collapseNlFuel : Nat → Str → Str
  | 0, s => s
  | n + 1, s => if containsSub s nl3 then collapseNlFuel n (replace_all s nl3 nl2) else s

/-- The collapse loop of matcher.rs delete_line_range. -/
def collapseNl (s : Str) : Str := collapseNlFuel s.length s

/-- matcher.rs delete_line_range. -/
def delete_line_range (content : Str) (startL endL : Nat) : Option Str :=
  let lines := rsLines content
  if startL = 0 ∨ endL = 0 ∨ endL < startL ∨ lines.length < endL then none
  else
    let base := buildIdx (deleteChunk (startL - 1) (endL - 1) lines.length) 0 lines
    let collapsed := collapseNl base
    some (if endsNl content ∧ collapsed ≠ [] ∧ ¬ endsNl collapsed then collapsed ++ ['\n']
          else collapsed)

/-- matcher.rs delete_matching_lines: new content and number of deleted lines. -/
def delete_matching_lines (content search : Str) : Str × Nat :=
  let lines := rsLines content
  let kept := lines.filter (fun l => ! containsSub l search)
  let output := joinNl kept
  (if endsNl content ∧ output ≠ [] then output ++ ['\n'] else output,
   lines.length - kept.length)

/-- indent.rs IndentStyle. -/
inductive IndentStyle
  | spaces (width : Nat)
  | tabs
  | mixed
  | unknown
deriving DecidableEq, Repr

/-- One line of the space-width-to-space-width branch of indent.rs
convert_to_target_style: rescale the indent level, keep the remainder flat. -/
def convLineSS (srcWidth tgtWidth : Nat) (line : Str) : Str :=
  let trimmed := rsTrimStart line
  let leading := line.length - trimmed.length
  if leading = 0 then line
  else spacesN ((leading / srcWidth) * tgtWidth + leading % srcWidth) ++ trimmed

/-- One line of the spaces-to-tabs branch of indent.rs convert_to_target_style. -/
def convLineST (srcWidth : Nat) (line : Str) : Str :=
  let trimmed := rsTrimStart line
  let leading := line.length - trimmed.length
  if leading = 0 then line
  else List.replicate (leading / srcWidth) '\t' ++ spacesN (leading % srcWidth) ++ trimmed

/-- One line of the tabs-to-spaces branch of indent.rs convert_to_target_style. -/
def convLineTS (tgtWidth : Nat) (line : Str) : Str :=
  let trimmed := rsTrimStart line
  let indent := line.take (line.length - trimmed.length)
  spacesN ((indent.filter (fun c => c = '\t')).length * tgtWidth
    + (indent.filter (fun c => c = ' ')).length) ++ trimmed

/-- indent.rs convert_to_target_style. -/
def convert_to_target_style (replacement : Str) (sourceStyle targetStyle : IndentStyle) : Str :=
  if sourceStyle = targetStyle then replacement
  else
    match sourceStyle, targetStyle with
    | .spaces sw, .spaces tw => joinNl ((rsLines replacement).map (convLineSS sw tw))
    | .spaces sw, .tabs => joinNl ((rsLines replacement).map (convLineST sw))
    | .tabs, .spaces tw => joinNl ((rsLines replacement).map (convLineTS tw))
    | _, _ => replacement

/-- error.rs EditError. -/
inductive EditError
  | fileNotFound (path : String)
  | searchNotFound (path : String) (searchPreview : Str) (closestMatches : List ClosestMatch)
  | anchorNotFound (path : String) (anchorPreview : Str) (closestMatches : List ClosestMatch)
  | lineOutOfRange (path : String) (line totalLines : Nat)
  | invalidLineRange (path : String) (startLine endLine totalLines : Nat)
  | readError (path reason : String)
  | writeError (path reason : String)
  | directoryError (path reason : String)
  | deleteError (path reason : String)
  | multipleMatches (path : String) (count : Nat) (searchPreview : Str)
  | invalidEdit (reason : String)
deriving DecidableEq, Repr

/-- error.rs error_code: the machine-readable kind string. -/
def error_code : EditError → String
  | .fileNotFound _ => "file_not_found"
  | .searchNotFound _ _ _ => "search_not_found"
  | .anchorNotFound _ _ _ => "anchor_not_found"
  | .lineOutOfRange _ _ _ => "line_out_of_range"
  | .invalidLineRange _ _ _ _ => "invalid_line_range"
  | .readError _ _ => "read_error"
  | .writeError _ _ => "write_error"
  | .directoryError _ _ => "directory_error"
  | .deleteError _ _ => "delete_error"
  | .multipleMatches _ _ _ => "multiple_matches"
  | .invalidEdit _ => "invalid_edit"

/-- error.rs thiserror Display messages. -/
def errMessage : EditError → String
  | .fileNotFound path => "File not found: " ++ path
  | .searchNotFound path _ _ => "Search string not found in file: " ++ path
  | .anchorNotFound path _ _ => "Anchor string not found in file: " ++ path
  | .lineOutOfRange path line total =>
    "Line " ++ toString line ++ " out of range (file has " ++ toString total ++ " lines): " ++ path
  | .invalidLineRange path s e total =>
    "Invalid line range " ++ toString s ++ "-" ++ toString e ++ " (file has "
      ++ toString total ++ " lines): " ++ path
  | .readError path reason => "Failed to read file: " ++ path ++ " - " ++ reason
  | .writeError path reason => "Failed to write file: " ++ path ++ " - " ++ reason
  | .directoryError path reason => "Failed to create directory: " ++ path ++ " - " ++ reason
  | .deleteError path reason => "Failed to delete file: " ++ path ++ " - " ++ reason
  | .multipleMatches path count _ =>
    "Multiple matches found (" ++ toString count ++ ") - search string is not unique: " ++ path
  | .invalidEdit reason => "Invalid edit: " ++ reason

/-- error.rs generate_hint_for_search_not_found. -/
def generate_hint (closest : List ClosestMatch) : String :=
  match closest with
  | [] => "No similar content found. The file may have changed significantly."
  | best :: _ =>
    if Rat.divInt 9 10 < best.similarity then
      "Very close match at line " ++ toString best.line
        ++ ". Check for minor differences (whitespace, punctuation)."
    else if Rat.divInt 7 10 < best.similarity then
      "Similar content found at line " ++ toString best.line
        ++ ". The code may have been modified."
    else
      "Partial match at line " ++ toString best.line ++ " ("
        ++ toString ((best.similarity.num * 100).fdiv (best.similarity.den : Int)).toNat
        ++ "% similar). The code structure may have changed."

/-- error.rs EditOutcome. -/
inductive EditOutcome
  | ok (index : Nat) (path : String) (editType : String)
      (linesAffected : Option (List Nat)) (message : Option String)
  | error (index : Nat) (path : String) (editType : String)
      (errorCode : String) (message : String) (searchPreview : Option Str)
      (closestMatches : Option (List ClosestMatch)) (hint : Option String)
  | warning (index : Nat) (path : String) (editType : String)
      (warningText : String) (message : String)
deriving DecidableEq, Repr

/-- error.rs EditOutcome::is_success. -/
def EditOutcome.isSuccess : EditOutcome → Bool
  | .ok _ _ _ _ _ => true
  | .warning _ _ _ _ _ => true
  | .error _ _ _ _ _ _ _ _ => false

/-- The index an outcome records. -/
def EditOutcome.idx : EditOutcome → Nat
  | .ok i _ _ _ _ => i
  | .error i _ _ _ _ _ _ _ => i
  | .warning i _ _ _ _ => i

/-- The path an outcome records. -/
def EditOutcome.pathOf : EditOutcome → String
  | .ok _ p _ _ _ => p
  | .error _ p _ _ _ _ _ _ => p
  | .warning _ p _ _ _ => p

/-- error.rs EditOutcome::from_error. -/
def outcomeFromError (index : Nat) (path editType : String) : EditError → EditOutcome
  | .searchNotFound p preview closest =>
    .error index path editType "search_not_found" (errMessage (.searchNotFound p preview closest))
      (some preview) (some closest) (some (generate_hint closest))
  | .anchorNotFound p preview closest =>
    .error index path editType "anchor_not_found" (errMessage (.anchorNotFound p preview closest))
      (some preview) (some closest) (some (generate_hint closest))
  | e => .error index path editType (error_code e) (errMessage e) none none none

/-- error.rs ApplyResult. -/
structure ApplyResult where
  success : Bool
  applied : Nat
  failed : Nat
  edits : List EditOutcome
deriving DecidableEq, Repr

/-- error.rs ApplyResult::new. -/
def ApplyResult.new : ApplyResult := ⟨true, 0, 0, []⟩

/-- error.rs ApplyResult::add_outcome. -/
def ApplyResult.add_outcome (r : ApplyResult) (o : EditOutcome) : ApplyResult :=
  if o.isSuccess then
    { r with applied := r.applied + 1, edits := r.edits ++ [o] }
  else
    { r with failed := r.failed + 1, success := false, edits := r.edits ++ [o] }

/-- edits/mod.rs Edit. -/
inductive Edit
  | replace (path : String) (search rep : Str)
  | replaceAll (path : String) (search rep : Str)
  | insertAfter (path : String) (anchor content : Str)
  | insertBefore (path : String) (anchor content : Str)
  | insertAtLine (path : String) (line : Nat) (content : Str)
  | create (path : String) (content : Str)
  | deleteFile (path : String)
  | deleteLines (path : String) (startLine endLine : Nat)
  | deleteMatch (path : String) (search : Str)
  | append (path : String) (content : Str)
  | prepend (path : String) (content : Str)
deriving DecidableEq, Repr

/-- edits/mod.rs Edit::path. -/
def Edit.path : Edit → String
  | .replace p _ _ => p
  | .replaceAll p _ _ => p
  | .insertAfter p _ _ => p
  | .insertBefore p _ _ => p
  | .insertAtLine p _ _ => p
  | .create p _ => p
  | .deleteFile p => p
  | .deleteLines p _ _ => p
  | .deleteMatch p _ => p
  | .append p _ => p
  | .prepend p _ => p

/-- edits/mod.rs Edit::type_name. -/
def Edit.type_name : Edit → String
  | .replace _ _ _ => "replace"
  | .replaceAll _ _ _ => "replace_all"
  | .insertAfter _ _ _ => "insert_after"
  | .insertBefore _ _ _ => "insert_before"
  | .insertAtLine _ _ _ => "insert_at_line"
  | .create _ _ => "create"
  | .deleteFile _ => "delete_file"
  | .deleteLines _ _ _ => "delete_lines"
  | .deleteMatch _ _ => "delete_match"
  | .append _ _ => "append"
  | .prepend _ _ => "prepend"

deriving instance DecidableEq for Except

/-- What an edit asks the filesystem to do after its content-level logic ran. -/
inductive FsWrite
  | keep
  | write (content : Str)
  | removeFile
deriving DecidableEq, Repr

/-- replace.rs apply_replace, content-level (reads and writes are handled by the caller). -/
def replaceCore (path : String) (content search rep : Str) :
    Except EditError (FsWrite × String) :=
  if search = [] then .error (.invalidEdit "Search string cannot be empty")
  else if 0 < count_occurrences content search then
    match replace_first content search rep with
    | none => .error (.invalidEdit "Replacement failed unexpectedly")
    | some newContent =>
      match find_literal content search with
      | some pos =>
        let sl := get_affected_lines content pos search.length
        if sl.1 = sl.2 then
          .ok (.write newContent, "Replaced 1 occurrence (line " ++ toString sl.1 ++ ")")
        else
          .ok (.write newContent,
            "Replaced 1 occurrence (lines " ++ toString sl.1 ++ "-" ++ toString sl.2 ++ ")")
      | none => .ok (.write newContent, "Replaced 1 occurrence")
  else
    match replace_with_normalization content search rep with
    | some r =>
      .ok (.write r.1, "Replaced with indentation adjustment (" ++ r.2 ++ ")")
    | none =>
      .error (.searchNotFound path (truncate_preview search 200)
        (find_closest_matches content search (Rat.divInt 1 2) 3))

/-- replace.rs apply_replace_all, content-level. -/
def replaceAllCore (path : String) (content search rep : Str) :
    Except EditError (FsWrite × String) :=
  if search = [] then .error (.invalidEdit "Search string cannot be empty")
  else if count_occurrences content search = 0 then
    .error (.searchNotFound path (truncate_preview search 200)
      (find_closest_matches content search (Rat.divInt 1 2) 3))
  else
    .ok (.write (replace_all content search rep),
      "Replaced " ++ toString (count_occurrences content search) ++ " occurrence(s)")

/-- insert.rs apply_insert_after, content-level. -/
def insertAfterCore (path : String) (content anchor newC : Str) :
    Except EditError (FsWrite × String) :=
  if anchor = [] then .error (.invalidEdit "Anchor string cannot be empty")
  else
    match insert_after_line content anchor newC with
    | some r => .ok (.write r.1, "Inserted after anchor at line " ++ toString (r.2 - 1))
    | none =>
      .error (.anchorNotFound path (truncate_preview anchor 200)
        (find_closest_matches content anchor (Rat.divInt 1 2) 3))

/-- insert.rs apply_insert_before, content-level. -/
def insertBeforeCore (path : String) (content anchor newC : Str) :
    Except EditError (FsWrite × String) :=
  if anchor = [] then .error (.invalidEdit "Anchor string cannot be empty")
  else
    match insert_before_line content anchor newC with
    | some r => .ok (.write r.1, "Inserted before anchor at line " ++ toString r.2)
    | none =>
      .error (.anchorNotFound path (truncate_preview anchor 200)
        (find_closest_matches content anchor (Rat.divInt 1 2) 3))

/-- insert.rs apply_insert_at_line, content-level. -/
def insertAtLineCore (path : String) (content : Str) (line : Nat) (newC : Str) :
    Except EditError (FsWrite × String) :=
  let totalLines := (rsLines content).length
  if line = 0 then .error (.invalidEdit "Line number must be >= 1")
  else if totalLines + 1 < line then .error (.lineOutOfRange path line totalLines)
  else
    match insert_at_line content line newC with
    | some newContent => .ok (.write newContent, "Inserted at line " ++ toString line)
    | none => .error (.lineOutOfRange path line totalLines)

/-- delete.rs apply_delete_lines, content-level. -/
def deleteLinesCore (path : String) (content : Str) (startLine endLine : Nat) :
    Except EditError (FsWrite × String) :=
  let totalLines := (rsLines content).length
  if startLine = 0 ∨ endLine = 0 then .error (.invalidEdit "Line numbers must be >= 1")
  else if endLine < startLine then
    .error (.invalidEdit ("Start line (" ++ toString startLine ++ ") must be <= end line ("
      ++ toString endLine ++ ")"))
  else if totalLines < endLine then
    .error (.invalidLineRange path startLine endLine totalLines)
  else
    match delete_line_range content startLine endLine with
    | some newContent =>
      let deleted := endLine - startLine + 1
      if deleted = 1 then .ok (.write newContent, "Deleted line " ++ toString startLine)
      else
        .ok (.write newContent, "Deleted " ++ toString deleted ++ " lines ("
          ++ toString startLine ++ "-" ++ toString endLine ++ ")")
    | none => .error (.invalidLineRange path startLine endLine totalLines)

/-- delete.rs apply_delete_match, content-level.  A zero-match run performs no write. -/
def deleteMatchCore (content search : Str) : Except EditError (FsWrite × String) :=
  if search = [] then .error (.invalidEdit "Search string cannot be empty")
  else
    let r := delete_matching_lines content search
    if r.2 = 0 then .ok (.keep, "No matching lines found (nothing deleted)")
    else if r.2 = 1 then .ok (.write r.1, "Deleted 1 matching line")
    else .ok (.write r.1, "Deleted " ++ toString r.2 ++ " matching lines")

/-- file_ops.rs apply_append: the content of the written file. -/
def appendContent (fileContent content : Str) : Str :=
  if endsNl fileContent ∨ fileContent = [] then fileContent ++ content
  else fileContent ++ '\n' :: content

/-- file_ops.rs apply_prepend: the content of the written file. -/
def prependContent (content fileContent : Str) : Str :=
  if endsNl content then content ++ fileContent else content ++ '\n' :: fileContent

/-- The filesystem: a finite map from path to file content. -/
abbrev FS := List (String × Str)

/-- Lookup of a path. -/
def fsGet : FS → String → Option Str
  | [], _ => none
  | e :: t, p => if e.1 = p then some e.2 else fsGet t p

/-- Write of a path (std::fs::write: create or overwrite). -/
def fsSet (fs : FS) (p : String) (v : Str) : FS :=
  (p, v) :: fs.filter (fun e => e.1 != p)

/-- Removal of a path (std::fs::remove_file). -/
def fsRemove (fs : FS) (p : String) : FS :=
  fs.filter (fun e => e.1 != p)

/-- edits/mod.rs read_file: content or FileNotFound. -/
def readThen (fs : FS) (path : String) (k : Str → Except EditError (FsWrite × String)) :
    Except EditError (FsWrite × String) :=
  match fsGet fs path with
  | none => .error (.fileNotFound path)
  | some content => k content

/-- edits/mod.rs Edit::apply_inner, with the filesystem effect made explicit. -/
def applyCore (fs : FS) : Edit → Except EditError (FsWrite × String)
  | .replace path s r => readThen fs path (fun c => replaceCore path c s r)
  | .replaceAll path s r => readThen fs path (fun c => replaceAllCore path c s r)
  | .insertAfter path a nc => readThen fs path (fun c => insertAfterCore path c a nc)
  | .insertBefore path a nc => readThen fs path (fun c => insertBeforeCore path c a nc)
  | .insertAtLine path ln nc => readThen fs path (fun c => insertAtLineCore path c ln nc)
  | .create _ content =>
    .ok (.write content, "Created file (" ++ toString (rsLines content).length ++ " lines, "
      ++ toString content.length ++ " bytes)")
  | .deleteFile path =>
    match fsGet fs path with
    | none => .ok (.keep, "File did not exist (already deleted)")
    | some _ => .ok (.removeFile, "Deleted file")
  | .deleteLines path s e => readThen fs path (fun c => deleteLinesCore path c s e)
  | .deleteMatch path s => readThen fs path (fun c => deleteMatchCore c s)
  | .append path content =>
    readThen fs path (fun c =>
      .ok (.write (appendContent c content),
        "Appended " ++ toString (rsLines content).length ++ " line(s)"))
  | .prepend path content =>
    readThen fs path (fun c =>
      .ok (.write (prependContent content c),
        "Prepended " ++ toString (rsLines content).length ++ " line(s)"))

/-- One edit applied against the filesystem (read, content logic, write). -/
def applyEditFS (fs : FS) (e : Edit) : FS × Except EditError String :=
  match applyCore fs e with
  | .error err => (fs, .error err)
  | .ok (w, msg) =>
    (match w with
     | .keep => fs
     | .write c => fsSet fs e.path c
     | .removeFile => fsRemove fs e.path,
     .ok msg)

/-- edits/mod.rs Edit::apply: wrap a result into an outcome. -/
def outcomeOf (index : Nat) (path editType : String) : Except EditError String → EditOutcome
  | .ok msg => .ok index path editType none (some msg)
  | .error e => outcomeFromError index path editType e

/-- transaction.rs simulate_edit for Replace/ReplaceAll. -/
def simulateReplace (fs : FS) (path : String) (search : Str) : Except EditError String :=
  match fsGet fs path with
  | none => .error (.fileNotFound path)
  | some content =>
    if 0 < count_occurrences content search then
      .ok ("Would replace " ++ toString (count_occurrences content search)
        ++ " occurrence(s) (dry-run)")
    else
      match find_with_normalization content search with
      | .normalizedMatch _ ln =>
        .ok ("Would replace with indentation adjustment at line " ++ toString ln ++ " (dry-run)")
      | _ =>
        .error (.searchNotFound path (search.take 200)
          (find_closest_matches content search (Rat.divInt 1 2) 3))

/-- transaction.rs simulate_edit for InsertAfter/InsertBefore. -/
def simulateAnchor (fs : FS) (path : String) (anchor : Str) : Except EditError String :=
  match fsGet fs path with
  | none => .error (.fileNotFound path)
  | some content =>
    if (find_line_with_anchor content anchor).isSome then
      .ok "Would insert content (dry-run)"
    else
      .error (.anchorNotFound path (anchor.take 200)
        (find_closest_matches content anchor (Rat.divInt 1 2) 3))

/-- transaction.rs EditTransaction::simulate_edit, as a message-or-error result. -/
def simulateRes (fs : FS) : Edit → Except EditError String
  | .replace path search _ => simulateReplace fs path search
  | .replaceAll path search _ => simulateReplace fs path search
  | .insertAfter path anchor _ => simulateAnchor fs path anchor
  | .insertBefore path anchor _ => simulateAnchor fs path anchor
  | .insertAtLine path line _ =>
    (match fsGet fs path with
     | none => .error (.fileNotFound path)
     | some content =>
       let totalLines := (rsLines content).length
       if 0 < line ∧ line ≤ totalLines + 1 then
         .ok ("Would insert at line " ++ toString line ++ " (dry-run)")
       else .error (.lineOutOfRange path line totalLines))
  | .create path _ =>
    (match fsGet fs path with
     | some _ => .ok "Would overwrite existing file (dry-run)"
     | none => .ok "Would create new file (dry-run)")
  | .deleteFile path =>
    (match fsGet fs path with
     | some _ => .ok "Would delete file (dry-run)"
     | none => .error (.fileNotFound path))
  | .deleteLines path s e =>
    (match fsGet fs path with
     | none => .error (.fileNotFound path)
     | some content =>
       let totalLines := (rsLines content).length
       if 0 < s ∧ s ≤ e ∧ e ≤ totalLines then
         .ok ("Would delete lines " ++ toString s ++ "-" ++ toString e ++ " (dry-run)")
       else .error (.invalidLineRange path s e totalLines))
  | .deleteMatch path search =>
    (match fsGet fs path with
     | none => .error (.fileNotFound path)
     | some content =>
       .ok ("Would delete "
         ++ toString ((rsLines content).filter (fun l => containsSub l search)).length
         ++ " matching line(s) (dry-run)"))
  | .append path _ =>
    (match fsGet fs path with
     | none => .error (.fileNotFound path)
     | some _ => .ok "Would append/prepend content (dry-run)")
  | .prepend path _ =>
    (match fsGet fs path with
     | none => .error (.fileNotFound path)
     | some _ => .ok "Would append/prepend content (dry-run)")

/-- transaction.rs EditTransaction: current filesystem plus the backup set in
insertion order. -/
structure TxState where
  fs : FS
  backups : List (String × Option Str)
deriving DecidableEq, Repr

/-- Lookup in the backup set. -/
def backupLookup : List (String × Option Str) → String → Option (Option Str)
  | [], _ => none
  | b :: t, p => if b.1 = p then some b.2 else backupLookup t p

/-- transaction.rs EditTransaction::backup_file: first touch wins. -/
def backupFile (st : TxState) (p : String) : TxState :=
  if (backupLookup st.backups p).isSome then st
  else { st with backups := st.backups ++ [(p, fsGet st.fs p)] }

/-- transaction.rs EditTransaction::apply_edit. -/
def applyEditTx (st : TxState) (e : Edit) (index : Nat) (dryRun : Bool) :
    TxState × EditOutcome :=
  if dryRun then (st, outcomeOf index e.path e.type_name (simulateRes st.fs e))
  else
    let st1 := backupFile st e.path
    let r := applyEditFS st1.fs e
    ({ st1 with fs := r.1 }, outcomeOf index e.path e.type_name r.2)

/-- Restoring one backup snapshot (rollback body). -/
def restoreOne (fs : FS) (b : String × Option Str) : FS :=
  match b.2 with
  | some c => fsSet fs b.1 c
  | none => fsRemove fs b.1

/-- transaction.rs EditTransaction::rollback. -/
def rollbackFS (st : TxState) : FS := st.backups.foldl restoreOne st.fs

/-- transaction.rs apply_with_transaction main loop; bool result records whether
the run ended in a rollback. -/
def applyLoop (dryRun partialMode : Bool) :
    TxState → Nat → ApplyResult → List Edit → TxState × ApplyResult × Bool
  | st, _, acc, [] => (st, acc, false)
  | st, index, acc, e :: rest =>
    let r := applyEditTx st e index dryRun
    let acc2 := acc.add_outcome r.2
    if r.2.isSuccess = false ∧ partialMode = false ∧ dryRun = false then (r.1, acc2, true)
    else applyLoop dryRun partialMode r.1 (index + 1) acc2 rest

/-- transaction.rs apply_with_transaction. -/
def apply_with_transaction (fs : FS) (edits : List Edit) (dryRun partialMode : Bool) :
    FS × ApplyResult :=
  let r := applyLoop dryRun partialMode ⟨fs, []⟩ 0 ApplyResult.new edits
  (if r.2.2 then rollbackFS r.1 else r.1.fs, r.2.1)

/-- Boolean substring test on Lean strings (used for message properties). -/
def strContainsB (s sub : String) : Bool := containsSub s.toList sub.toList

/-- Character list of a Lean string literal (for concrete instances). -/
def strOf (s : String) : Str := s.toList

/-- edits/mod.rs Edit::apply at the outcome level. -/
def editApplyOutcome (fs : FS) (e : Edit) (index : Nat) : EditOutcome :=
  outcomeOf index e.path e.type_name (applyEditFS fs e).2

/-- Whether an outcome is the Warning variant. -/
def EditOutcome.isWarning : EditOutcome → Bool
  | .warning _ _ _ _ _ => true
  | _ => false

/-- Whether an outcome is the Ok variant. -/
def EditOutcome.isOk : EditOutcome → Bool
  | .ok _ _ _ _ _ => true
  | _ => false

/-- The message of an Ok outcome. -/
def EditOutcome.okMessage : EditOutcome → Option String
  | .ok _ _ _ _ m => m
  | _ => none

/-- Pointwise agreement of two filesystems on a list of paths. -/
def fsAgrees (a b : FS) (ps : List String) : Bool :=
  ps.all (fun p => fsGet a p == fsGet b p)

/-- Modelled from the spec: cap every run of consecutive newline characters at
cap characters, scanning left to right (k counts the newlines already kept in
the current run).  With cap = 2 this is "runs of two or more blank lines
collapse to exactly one blank line; shorter runs are unchanged". -/
def capNlAux (cap : Nat) : Str → Nat → Str
  | [], _ => []
  | c :: t, k =>
    if c = '\n' then
      if k < cap then '\n' :: capNlAux cap t (k + 1) else capNlAux cap t k
    else c :: capNlAux cap t 0

/-- Modelled from the spec: newline runs capped at two characters. -/
def squeezeNl (s : Str) : Str := capNlAux 2 s 0

/-- Leading newlines removed. -/
def dropNlStart (s : Str) : Str := s.dropWhile (fun c => c = '\n')

/-- Trailing newlines removed. -/
def dropNlEnd (s : Str) : Str := (s.reverse.dropWhile (fun c => c = '\n')).reverse

/-- Modelled from the spec: old and new content joined with exactly one
separating line break between them. -/
def singleSepJoin (old new : Str) : Str := dropNlEnd old ++ '\n' :: dropNlStart new

/-- A line that is k source-width indent units of pure spaces followed by a
body that carries no leading whitespace. -/
def spaceAligned (w : Nat) (l : Str) : Prop :=
  ∃ k b, l = spacesN (k * w) ++ b ∧ rsTrimStart b = b

/-- startsWith agrees with the list prefix relation. -/
theorem startsWith_iff (s pat : Str) : startsWith s pat = true ↔ pat <+: s := by
  induction pat generalizing s with
  | nil => simp [startsWith]
  | cons d u ih =>
    cases s with
    | nil => simp [startsWith]
    | cons c t =>
      simp only [startsWith, Bool.and_eq_true, decide_eq_true_eq, List.cons_prefix_cons]
      constructor
      · rintro ⟨rfl, hr⟩; exact ⟨rfl, (ih t).mp hr⟩
      · rintro ⟨rfl, hr⟩; exact ⟨rfl, (ih t).mpr hr⟩

/-- A matched pattern is no longer than the string it matches at the front. -/
theorem startsWith_length_le (s pat : Str) (h : startsWith s pat = true) :
    pat.length ≤ s.length :=
  ((startsWith_iff s pat).mp h).length_le

/-- Any two sufficient fuels agree for replaceAllF. -/
theorem replaceAllF_fuel (pat rep : Str) :
    ∀ f₁ f₂ (s : Str), s.length ≤ f₁ → s.length ≤ f₂ →
      replaceAllF f₁ s pat rep = replaceAllF f₂ s pat rep := by
  intro f₁
  induction f₁ with
  | zero =>
    intro f₂ s h1 _
    have : s = [] := List.eq_nil_of_length_eq_zero (Nat.le_zero.mp h1)
    subst this
    cases f₂ <;> rfl
  | succ n ih =>
    intro f₂ s h1 h2
    cases s with
    | nil => cases f₂ <;> rfl
    | cons c t =>
      cases f₂ with
      | zero => simp at h2
      | succ g =>
        simp only [replaceAllF]
        split
        case isTrue hc =>
          have hp : 1 ≤ pat.length := by
            cases hq : pat with
            | nil => exact absurd hq hc.1
            | cons d u => simp
          have hd : ((c :: t).drop pat.length).length ≤ n := by
            simp only [List.length_drop, List.length_cons]
            simp only [List.length_cons] at h1
            omega
          have hd2 : ((c :: t).drop pat.length).length ≤ g := by
            simp only [List.length_drop, List.length_cons]
            simp only [List.length_cons] at h2
            omega
          rw [ih g _ hd hd2]
        case isFalse =>
          have ht : t.length ≤ n := by simp only [List.length_cons] at h1; omega
          have ht2 : t.length ≤ g := by simp only [List.length_cons] at h2; omega
          rw [ih g t ht ht2]

/-- replaceAllNE on an empty string. -/
theorem replaceAllNE_nil (pat rep : Str) : replaceAllNE [] pat rep = [] := rfl

/-- The one-step unfolding of replaceAllNE. -/
theorem replaceAllNE_cons (c : Char) (t pat rep : Str) :
    replaceAllNE (c :: t) pat rep =
      if pat ≠ [] ∧ startsWith (c :: t) pat then
        rep ++ replaceAllNE ((c :: t).drop pat.length) pat rep
      else c :: replaceAllNE t pat rep := by
  show replaceAllF (c :: t).length (c :: t) pat rep = _
  rw [show (c :: t).length = t.length + 1 from rfl]
  simp only [replaceAllF]
  split
  case isTrue hc =>
    have hp : 1 ≤ pat.length := by
      cases hq : pat with
      | nil => exact absurd hq hc.1
      | cons d u => simp
    rw [replaceAllF_fuel pat rep t.length ((c :: t).drop pat.length).length _
      (by simp only [List.length_drop, List.length_cons]; omega) le_rfl]
    rfl
  case isFalse =>
    rfl

/-- Any two sufficient fuels agree for countF. -/
theorem countF_fuel (pat : Str) :
    ∀ f₁ f₂ (s : Str), s.length ≤ f₁ → s.length ≤ f₂ →
      countF f₁ s pat = countF f₂ s pat := by
  intro f₁
  induction f₁ with
  | zero =>
    intro f₂ s h1 _
    have : s = [] := List.eq_nil_of_length_eq_zero (Nat.le_zero.mp h1)
    subst this
    cases f₂ <;> rfl
  | succ n ih =>
    intro f₂ s h1 h2
    cases s with
    | nil => cases f₂ <;> rfl
    | cons c t =>
      cases f₂ with
      | zero => simp at h2
      | succ g =>
        simp only [countF]
        split
        case isTrue hc =>
          have hp : 1 ≤ pat.length := by
            cases hq : pat with
            | nil => exact absurd hq hc.1
            | cons d u => simp
          have hd : ((c :: t).drop pat.length).length ≤ n := by
            simp only [List.length_drop, List.length_cons]
            simp only [List.length_cons] at h1
            omega
          have hd2 : ((c :: t).drop pat.length).length ≤ g := by
            simp only [List.length_drop, List.length_cons]
            simp only [List.length_cons] at h2
            omega
          rw [ih g _ hd hd2]
        case isFalse =>
          have ht : t.length ≤ n := by simp only [List.length_cons] at h1; omega
          have ht2 : t.length ≤ g := by simp only [List.length_cons] at h2; omega
          rw [ih g t ht ht2]

/-- countNE on an empty string. -/
theorem countNE_nil (pat : Str) : countNE [] pat = 0 := rfl

/-- The one-step unfolding of countNE. -/
theorem countNE_cons (c : Char) (t pat : Str) :
    countNE (c :: t) pat =
      if pat ≠ [] ∧ startsWith (c :: t) pat then
        countNE ((c :: t).drop pat.length) pat + 1
      else countNE t pat := by
  show countF (c :: t).length (c :: t) pat = _
  rw [show (c :: t).length = t.length + 1 from rfl]
  simp only [countF]
  split
  case isTrue hc =>
    have hp : 1 ≤ pat.length := by
      cases hq : pat with
      | nil => exact absurd hq hc.1
      | cons d u => simp
    rw [countF_fuel pat t.length ((c :: t).drop pat.length).length _
      (by simp only [List.length_drop, List.length_cons]; omega) le_rfl]
    rfl
  case isFalse =>
    rfl

/-- containsSub agrees with the list infix relation. -/
theorem containsSub_iff (s pat : Str) : containsSub s pat = true ↔ pat <:+: s := by
  induction s with
  | nil =>
    cases pat with
    | nil => simp [containsSub, findSub, startsWith]
    | cons d u => simp [containsSub, findSub, startsWith]
  | cons c t ih =>
    simp only [containsSub, findSub] at *
    rw [List.infix_cons_iff]
    by_cases hsw : startsWith (c :: t) pat = true
    · simp only [hsw, if_true, Option.isSome_some, true_iff]
      exact Or.inl ((startsWith_iff _ _).mp hsw)
    · simp only [hsw, Bool.false_eq_true, if_false]
      have hmap : ∀ (o : Option Nat), (o.map (· + 1)).isSome = o.isSome := by
        intro o; cases o <;> rfl
      rw [hmap, ih]
      constructor
      · exact Or.inr
      · rintro (hpre | hinf)
        · exact absurd ((startsWith_iff _ _).mpr hpre) hsw
        · exact hinf

/-- findSub finds something iff the pattern occurs. -/
theorem findSub_isSome_iff (s pat : Str) : (findSub s pat).isSome = true ↔ pat <:+: s :=
  containsSub_iff s pat

/-- A found position carries a genuine occurrence: the pattern matches at it. -/
theorem findSub_spec (s pat : Str) (pos : Nat) (h : findSub s pat = some pos) :
    startsWith (s.drop pos) pat = true := by
  induction s generalizing pos with
  | nil =>
    simp only [findSub] at h
    split at h
    · cases h; simpa [List.drop] using (by assumption : startsWith [] pat = true)
    · cases h
  | cons c t ih =>
    simp only [findSub] at h
    split at h
    · cases h; simpa [List.drop] using (by assumption : startsWith (c :: t) pat = true)
    · cases hfind : findSub t pat with
      | none => rw [hfind] at h; cases h
      | some q =>
        rw [hfind] at h
        simp only [Option.map_some'] at h
        cases h
        simpa [List.drop] using ih q hfind

/-- containsSub is monotone along the infix order. -/
theorem containsSub_mono (a b pat : Str) (hab : a <:+: b)
    (h : containsSub a pat = true) : containsSub b pat = true :=
  (containsSub_iff b pat).mpr (((containsSub_iff a pat).mp h).trans hab)

/-- A right factor's occurrences survive appending on the left. -/
theorem containsSub_append_right (a b pat : Str) (h : containsSub b pat = true) :
    containsSub (a ++ b) pat = true := by
  rw [containsSub_iff] at h ⊢
  exact h.trans ⟨a, [], by simp⟩

/-- replaceAllNE never lengthens the string when the replacement is no longer
than the pattern. -/
theorem replaceAllNE_length_le (pat rep : Str) (h : rep.length ≤ pat.length) (s : Str) :
    (replaceAllNE s pat rep).length ≤ s.length := by
  have main : ∀ n (s : Str), s.length ≤ n → (replaceAllNE s pat rep).length ≤ s.length := by
    intro n
    induction n with
    | zero =>
      intro s hs
      have : s = [] := List.eq_nil_of_length_eq_zero (Nat.le_zero.mp hs)
      subst this; simp [replaceAllNE_nil]
    | succ n ih =>
      intro s hs
      match s with
      | [] => simp [replaceAllNE_nil]
      | c :: t =>
        rw [replaceAllNE_cons]
        split
        case isTrue hc =>
          have hple : pat.length ≤ (c :: t).length := startsWith_length_le _ _ hc.2
          have hdrop : ((c :: t).drop pat.length).length ≤ n := by
            simp only [List.length_drop, List.length_cons]
            simp only [List.length_cons] at hs
            have hp : pat.length ≠ 0 := fun hz => hc.1 (List.eq_nil_of_length_eq_zero hz)
            omega
          have hrec := ih _ hdrop
          simp only [List.length_append, List.length_drop, List.length_cons] at *
          omega
        case isFalse =>
          have hrec := ih t (by simp only [List.length_cons] at hs; omega)
          simp only [List.length_cons]
          omega
  exact main s.length s le_rfl

/-- Unfolding lemma for joinNl on a cons cell. -/
theorem joinNl_cons (l : Str) (r : List Str) :
    joinNl (l :: r) = l ++ (if r = [] then [] else '\n' :: joinNl r) := by
  cases r <;> simp [joinNl]

/-- splitNl always yields at least one piece. -/
theorem splitNl_ne_nil (s : Str) : splitNl s ≠ [] := by
  cases s with
  | nil => simp [splitNl]
  | cons c t =>
    simp only [splitNl]
    split
    · simp
    · cases h : splitNl t <;> simp

/-- splitNl of a newline character prepends an empty piece. -/
theorem splitNl_nl_cons (t : Str) : splitNl ('\n' :: t) = [] :: splitNl t := by
  simp [splitNl]

/-- splitNl of a non-newline character extends the first piece. -/
theorem splitNl_other_cons (c : Char) (t : Str) (hc : c ≠ '\n') (a : Str) (r : List Str)
    (h : splitNl t = a :: r) : splitNl (c :: t) = (c :: a) :: r := by
  simp only [splitNl, hc, if_false]
  rw [h]

/-- splitNl of a newline-free block followed by anything prepends the block to
the first piece. -/
theorem splitNl_append (l s : Str) (h : '\n' ∉ l) :
    splitNl (l ++ s) = (l ++ (splitNl s).headD []) :: (splitNl s).tail := by
  induction l with
  | nil =>
    cases hs : splitNl s with
    | nil => exact absurd hs (splitNl_ne_nil s)
    | cons a r => simp [hs]
  | cons c l ih =>
    have hc : c ≠ '\n' := fun hcc => h (by simp [hcc])
    have hl : '\n' ∉ l := fun hml => h (by simp [hml])
    have ih2 := ih hl
    cases hs : splitNl s with
    | nil => exact absurd hs (splitNl_ne_nil s)
    | cons a r =>
      rw [hs] at ih2
      simp only [List.headD, List.tail] at ih2 ⊢
      rw [List.cons_append, splitNl_other_cons c (l ++ s) hc _ _ ih2]
      simp

/-- Joining the pieces of splitNl restores the string. -/
theorem joinNl_splitNl (s : Str) : joinNl (splitNl s) = s := by
  induction s with
  | nil => simp [splitNl, joinNl]
  | cons c t ih =>
    by_cases hc : c = '\n'
    · subst hc
      rw [splitNl_nl_cons, joinNl_cons, if_neg (splitNl_ne_nil t), ih]
      rfl
    · cases h : splitNl t with
      | nil => exact absurd h (splitNl_ne_nil t)
      | cons a r =>
        rw [h] at ih
        rw [splitNl_other_cons c t hc a r h]
        cases r with
        | nil =>
          simp only [joinNl] at ih ⊢
          rw [ih]
        | cons b r2 =>
          rw [joinNl_cons, if_neg (by simp)] at ih ⊢
          simp only [List.cons_append]
          rw [ih]

/-- splitNl inverts joinNl on newline-free pieces. -/
theorem splitNl_joinNl (ls : List Str) (hne : ls ≠ [])
    (h : ∀ l ∈ ls, '\n' ∉ l) : splitNl (joinNl ls) = ls := by
  induction ls with
  | nil => exact absurd rfl hne
  | cons l r ih =>
    cases r with
    | nil =>
      have h2 := splitNl_append l [] (h l (by simp))
      simp only [splitNl, List.headD, List.tail, List.append_nil] at h2
      rw [joinNl_cons, if_pos rfl, List.append_nil]
      exact h2
    | cons a r2 =>
      rw [joinNl_cons, if_neg (by simp), splitNl_append l _ (h l (by simp)),
        splitNl_nl_cons, ih (by simp) (fun x hx => h x (by simp [hx]))]
      simp

/-- Every character of a splitNl piece comes from the string. -/
theorem splitNl_sub (s : Str) : ∀ p ∈ splitNl s, ∀ c ∈ p, c ∈ s := by
  induction s with
  | nil => intro p hp c hc; simp [splitNl] at hp; subst hp; simp at hc
  | cons a t ih =>
    intro p hp c hc
    by_cases ha : a = '\n'
    · subst ha
      rw [splitNl_nl_cons] at hp
      rcases List.mem_cons.mp hp with rfl | hp
      · simp at hc
      · exact List.mem_cons_of_mem _ (ih p hp c hc)
    · cases h : splitNl t with
      | nil => exact absurd h (splitNl_ne_nil t)
      | cons b r =>
        rw [splitNl_other_cons a t ha b r h] at hp
        rcases List.mem_cons.mp hp with rfl | hp
        · rcases List.mem_cons.mp hc with rfl | hc2
          · simp
          · exact List.mem_cons_of_mem _ (ih b (by simp [h]) c hc2)
        · exact List.mem_cons_of_mem _ (ih p (by simp [h, hp]) c hc)

/-- No splitNl piece contains a newline. -/
theorem splitNl_no_nl (s : Str) : ∀ p ∈ splitNl s, '\n' ∉ p := by
  induction s with
  | nil => intro p hp; simp [splitNl] at hp; subst hp; simp
  | cons a t ih =>
    intro p hp
    by_cases ha : a = '\n'
    · subst ha
      rw [splitNl_nl_cons] at hp
      rcases List.mem_cons.mp hp with rfl | hp
      · simp
      · exact ih p hp
    · cases h : splitNl t with
      | nil => exact absurd h (splitNl_ne_nil t)
      | cons b r =>
        rw [splitNl_other_cons a t ha b r h] at hp
        rcases List.mem_cons.mp hp with rfl | hp
        · intro hmem
          rcases List.mem_cons.mp hmem with hq | hq
          · exact ha hq.symm
          · exact ih b (by simp [h]) hq
        · exact ih p (by simp [h, hp])

/-- stripCr is the identity on CR-free lines. -/
theorem stripCr_eq_self (l : Str) (h : '\r' ∉ l) : stripCr l = l := by
  unfold stripCr
  split
  · exact absurd (List.mem_of_mem_getLast? (by assumption)) h
  · rfl

/-- Characters of a stripped line are characters of the line. -/
theorem stripCr_sub (p : Str) (c : Char) (hc : c ∈ stripCr p) : c ∈ p := by
  unfold stripCr at hc
  split at hc
  · exact List.dropLast_subset _ hc
  · exact hc

/-- rsLinesAux is the identity when no piece ends in CR and the final piece is
nonempty. -/
theorem rsLinesAux_clean (ps : List Str)
    (hcr : ∀ p ∈ ps, stripCr p = p) (hlast : ps.getLast? ≠ some []) :
    rsLinesAux ps = ps := by
  induction ps with
  | nil => rfl
  | cons p r ih =>
    cases r with
    | nil =>
      have hp : p ≠ [] := by
        intro hp
        rw [hp] at hlast
        simp at hlast
      simp [rsLinesAux, hp]
    | cons q r2 =>
      show stripCr p :: rsLinesAux (q :: r2) = p :: q :: r2
      rw [hcr p (by simp), ih (fun x hx => hcr x (by simp [hx]))
        (by simpa [List.getLast?_cons_cons] using hlast)]

/-- Every rsLinesAux output is a piece or a stripped piece. -/
theorem rsLinesAux_mem (ps : List Str) (l : Str) (hl : l ∈ rsLinesAux ps) :
    ∃ p ∈ ps, l = p ∨ l = stripCr p := by
  induction ps with
  | nil => cases hl
  | cons p r ih =>
    cases r with
    | nil =>
      by_cases hp : p = []
      · rw [show rsLinesAux [p] = [] from by simp [rsLinesAux, hp]] at hl
        cases hl
      · rw [show rsLinesAux [p] = [p] from by simp [rsLinesAux, hp]] at hl
        rw [List.mem_singleton.mp hl]
        exact ⟨p, by simp, Or.inl rfl⟩
    | cons q r2 =>
      rw [show rsLinesAux (p :: q :: r2) = stripCr p :: rsLinesAux (q :: r2) from rfl] at hl
      rcases List.mem_cons.mp hl with rfl | hl2
      · exact ⟨p, by simp, Or.inr rfl⟩
      · obtain ⟨p2, hp2, hor⟩ := ih hl2
        exact ⟨p2, by simp [hp2], hor⟩

/-- Lines of a joined newline-free, CR-free piece list whose last piece is
nonempty are exactly the pieces. -/
theorem rsLines_joinNl (ls : List Str) (hne : ls ≠ [])
    (hnl : ∀ l ∈ ls, '\n' ∉ l) (hcr : ∀ l ∈ ls, '\r' ∉ l)
    (hlast : ls.getLast? ≠ some []) : rsLines (joinNl ls) = ls := by
  simp only [rsLines]
  rw [splitNl_joinNl ls hne hnl]
  exact rsLinesAux_clean ls (fun p hp => stripCr_eq_self p (hcr p hp)) hlast

/-- A nonempty string with no trailing newline splits into pieces whose last
piece is nonempty. -/
theorem splitNl_last_ne_nil (u : Str) (hu : u ≠ []) (hend : endsNl u = false) :
    (splitNl u).getLast? ≠ some [] := by
  induction u with
  | nil => exact absurd rfl hu
  | cons a v ih =>
    cases v with
    | nil =>
      have ha : a ≠ '\n' := by
        intro haa
        rw [haa] at hend
        simp [endsNl] at hend
      rw [splitNl_other_cons a [] ha [] [] (by simp [splitNl])]
      simp
    | cons b w =>
      have hv : endsNl (b :: w) = false := by
        simpa [endsNl, List.getLast?_cons_cons] using hend
      have ihv := ih (by simp) hv
      by_cases ha : a = '\n'
      · subst ha
        rw [splitNl_nl_cons]
        cases hsp : splitNl (b :: w) with
        | nil => exact absurd hsp (splitNl_ne_nil _)
        | cons p r =>
          rw [hsp] at ihv
          simpa [List.getLast?_cons_cons] using ihv
      · cases hsp : splitNl (b :: w) with
        | nil => exact absurd hsp (splitNl_ne_nil _)
        | cons p r =>
          rw [splitNl_other_cons a (b :: w) ha p r hsp]
          rw [hsp] at ihv
          cases r with
          | nil => simp
          | cons q r2 => simpa [List.getLast?_cons_cons] using ihv

/-- The backward round trip: joining rsLines restores a CR-free string with no
trailing newline. -/
theorem joinNl_rsLines (s : Str) (hcr : '\r' ∉ s) (hend : endsNl s = false) :
    joinNl (rsLines s) = s := by
  cases hs : s with
  | nil => rfl
  | cons c t =>
    rw [← hs]
    have hlast : (splitNl s).getLast? ≠ some [] :=
      splitNl_last_ne_nil s (by rw [hs]; simp) hend
    simp only [rsLines]
    rw [rsLinesAux_clean (splitNl s)
      (fun p hp => stripCr_eq_self p (fun hm => hcr (splitNl_sub s p hp '\r' hm))) hlast,
      joinNl_splitNl]

/-- No rsLines line contains a newline. -/
theorem rsLines_no_nl (s : Str) : ∀ l ∈ rsLines s, '\n' ∉ l := by
  intro l hl hm
  obtain ⟨p, hp, hor⟩ := rsLinesAux_mem (splitNl s) l hl
  have hmp : '\n' ∈ p := by
    rcases hor with rfl | rfl
    · exact hm
    · exact stripCr_sub p '\n' hm
  exact splitNl_no_nl s p hp hmp

/-- Every character of an rsLines line comes from the string. -/
theorem rsLines_sub (s : Str) : ∀ l ∈ rsLines s, ∀ c ∈ l, c ∈ s := by
  intro l hl c hc
  obtain ⟨p, hp, hor⟩ := rsLinesAux_mem (splitNl s) l hl
  have hcp : c ∈ p := by
    rcases hor with rfl | rfl
    · exact hc
    · exact stripCr_sub p c hc
  exact splitNl_sub s p hp c hcp

/-- The last rsLinesAux line is the last piece when that piece is nonempty. -/
theorem rsLinesAux_getLast (ps : List Str) (p : Str) (hp : ps.getLast? = some p)
    (hne : p ≠ []) : (rsLinesAux ps).getLast? = some p := by
  induction ps with
  | nil => cases hp
  | cons a r ih =>
    cases r with
    | nil =>
      simp only [List.getLast?_singleton, Option.some_inj] at hp
      subst hp
      simp [rsLinesAux, hne]
    | cons q r2 =>
      have h2 := ih (by simpa [List.getLast?_cons_cons] using hp)
      rw [show rsLinesAux (a :: q :: r2) = stripCr a :: rsLinesAux (q :: r2) from rfl]
      cases hr : rsLinesAux (q :: r2) with
      | nil => rw [hr] at h2; cases h2
      | cons y ys =>
        rw [hr] at h2
        rw [List.getLast?_cons_cons]
        exact h2

/-- A nonempty string without trailing newline has a nonempty last line. -/
theorem rsLines_getLast_ne_nil (s : Str) (hne : s ≠ []) (hend : endsNl s = false) :
    ∃ ll, (rsLines s).getLast? = some ll ∧ ll ≠ [] := by
  cases hp : (splitNl s).getLast? with
  | none =>
    exfalso
    exact splitNl_ne_nil s (List.getLast?_eq_none_iff.mp hp)
  | some p =>
    have hpne : p ≠ [] := by
      intro h
      rw [h] at hp
      exact splitNl_last_ne_nil s hne hend hp
    exact ⟨p, rsLinesAux_getLast (splitNl s) p hp hpne, hpne⟩

/-- Appending pieces under joinNl splits into joins with a separating newline. -/
theorem joinNl_append (ls₁ ls₂ : List Str) (h : ls₂ ≠ []) :
    joinNl (ls₁ ++ ls₂) = joinNl ls₁ ++ (if ls₁ = [] then [] else ['\n']) ++ joinNl ls₂ := by
  induction ls₁ with
  | nil => simp [joinNl]
  | cons a r ih =>
    cases r with
    | nil =>
      rw [List.cons_append, List.nil_append, joinNl_cons, if_neg h, joinNl_cons, if_pos rfl]
      simp
    | cons b r2 =>
      rw [List.cons_append, joinNl_cons, if_neg (by simp), joinNl_cons, if_neg (by simp), ih]
      simp

/-- replaceAllNE strictly shortens the string when the pattern occurs and the
replacement is strictly shorter. -/
theorem replaceAllNE_length_lt (pat rep : Str) (hp : pat ≠ []) (h : rep.length < pat.length)
    (s : Str) (hc : containsSub s pat = true) :
    (replaceAllNE s pat rep).length < s.length := by
  induction s with
  | nil =>
    exfalso
    have hx : startsWith [] pat = false := by
      cases pat with
      | nil => exact absurd rfl hp
      | cons d u => rfl
    simp [containsSub, findSub, hx] at hc
  | cons c t ih =>
    rw [replaceAllNE_cons]
    by_cases hsw : startsWith (c :: t) pat = true
    · rw [if_pos ⟨hp, hsw⟩]
      have hple : pat.length ≤ (c :: t).length := startsWith_length_le _ _ hsw
      have hrec := replaceAllNE_length_le pat rep (Nat.le_of_lt h) ((c :: t).drop pat.length)
      simp only [List.length_append, List.length_drop, List.length_cons] at *
      omega
    · rw [if_neg (fun hand => hsw hand.2)]
      have hct : containsSub t pat = true := by
        simp only [containsSub, findSub, hsw, Bool.false_eq_true, if_false] at hc ⊢
        simpa [Option.isSome_map] using hc
      have := ih hct
      simp only [List.length_cons]
      omega

/-- capNlAux on a newline consumes or keeps it depending on the run counter. -/
theorem capNlAux_nl (cap : Nat) (t : Str) (k : Nat) :
    capNlAux cap ('\n' :: t) k =
      if k < cap then '\n' :: capNlAux cap t (k + 1) else capNlAux cap t k := by
  simp [capNlAux]

/-- capNlAux on a non-newline keeps it and resets the run counter. -/
theorem capNlAux_other (cap : Nat) (c : Char) (t : Str) (k : Nat) (hc : c ≠ '\n') :
    capNlAux cap (c :: t) k = c :: capNlAux cap t 0 := by
  simp [capNlAux, hc]

/-- Strings containing at least two newlines right before a further newline
always contain "\n\n\n". -/
theorem contains_nl3_of_run (k : Nat) (hk : 2 ≤ k) (t : Str) :
    containsSub (List.replicate k '\n' ++ '\n' :: t) nl3 = true := by
  rw [containsSub_iff]
  refine ⟨List.replicate (k - 2) '\n', t, ?_⟩
  have hsplit : List.replicate k '\n' = List.replicate (k - 2) '\n' ++ ('\n' :: '\n' :: []) := by
    have : k = (k - 2) + 2 := by omega
    rw [this, List.replicate_add]
    rfl
  rw [hsplit]
  simp [nl3]

/-- A string without "\n\n\n" (even when mentally prefixed by the k newlines the
scanner has already kept) is unchanged by the run capper. -/
theorem capNlAux_eq_self (s : Str) (k : Nat)
    (h : containsSub (List.replicate k '\n' ++ s) nl3 = false) :
    capNlAux 2 s k = s := by
  induction s generalizing k with
  | nil => simp [capNlAux]
  | cons c t ih =>
    by_cases hc : c = '\n'
    · subst hc
      rw [capNlAux_nl]
      by_cases hk : k < 2
      · rw [if_pos hk]
        have hrepl : List.replicate k '\n' ++ '\n' :: t
            = List.replicate (k + 1) '\n' ++ t := by
          rw [List.replicate_succ']
          simp
        rw [hrepl] at h
        rw [ih (k + 1) h]
      · exfalso
        rw [contains_nl3_of_run k (by omega) t] at h
        cases h
    · rw [capNlAux_other 2 c t k hc]
      have ht : containsSub t nl3 = false := by
        by_contra hq
        have hq2 : containsSub t nl3 = true := by revert hq; cases containsSub t nl3 <;> simp
        have hinf : t <:+: List.replicate k '\n' ++ c :: t :=
          ⟨List.replicate k '\n' ++ [c], [], by simp⟩
        have := containsSub_mono t _ nl3 hinf hq2
        rw [this] at h
        cases h
      have := ih 0 (by simpa using ht)
      rw [this]

/-- One replacement pass of "\n\n\n" → "\n\n" does not change the capped form. -/
theorem capNlAux_replace_pass (s : Str) (k : Nat) :
    capNlAux 2 (replaceAllNE s nl3 nl2) k = capNlAux 2 s k := by
  have main : ∀ n (s : Str), s.length ≤ n → ∀ k,
      capNlAux 2 (replaceAllNE s nl3 nl2) k = capNlAux 2 s k := by
    intro n
    induction n with
    | zero =>
      intro s hs k
      have : s = [] := List.eq_nil_of_length_eq_zero (Nat.le_zero.mp hs)
      subst this
      simp [replaceAllNE_nil]
    | succ n ih =>
      intro s hs k
      match s with
      | [] => simp [replaceAllNE_nil]
      | c :: t =>
        rw [replaceAllNE_cons]
        split
        case isTrue hc =>
          obtain ⟨u, hu⟩ := (startsWith_iff _ _).mp hc.2
          have hdrop : (c :: t).drop nl3.length = u := by
            rw [← hu]; simp
          have hs3 : c :: t = '\n' :: '\n' :: '\n' :: u := by rw [← hu]; rfl
          have hulen : u.length ≤ n := by
            have hL : (nl3 ++ u).length = (c :: t).length := congrArg List.length hu
            simp only [List.length_append, List.length_cons] at hL hs
            simp only [nl3, List.length_cons, List.length_nil] at hL
            omega
          rw [hdrop, hs3]
          show capNlAux 2 ('\n' :: '\n' :: replaceAllNE u nl3 nl2) k
            = capNlAux 2 ('\n' :: '\n' :: '\n' :: u) k
          match k with
          | 0 =>
            have hL : capNlAux 2 ('\n' :: '\n' :: replaceAllNE u nl3 nl2) 0
                = '\n' :: '\n' :: capNlAux 2 (replaceAllNE u nl3 nl2) 2 := by
              rw [capNlAux_nl, if_pos (by omega), capNlAux_nl, if_pos (by omega)]
            have hR : capNlAux 2 ('\n' :: '\n' :: '\n' :: u) 0
                = '\n' :: '\n' :: capNlAux 2 u 2 := by
              rw [capNlAux_nl, if_pos (by omega), capNlAux_nl, if_pos (by omega),
                capNlAux_nl, if_neg (by omega)]
            rw [hL, hR, ih u hulen 2]
          | 1 =>
            have hL : capNlAux 2 ('\n' :: '\n' :: replaceAllNE u nl3 nl2) 1
                = '\n' :: capNlAux 2 (replaceAllNE u nl3 nl2) 2 := by
              rw [capNlAux_nl, if_pos (by omega), capNlAux_nl, if_neg (by omega)]
            have hR : capNlAux 2 ('\n' :: '\n' :: '\n' :: u) 1
                = '\n' :: capNlAux 2 u 2 := by
              rw [capNlAux_nl, if_pos (by omega), capNlAux_nl, if_neg (by omega),
                capNlAux_nl, if_neg (by omega)]
            rw [hL, hR, ih u hulen 2]
          | k + 2 =>
            have hL : capNlAux 2 ('\n' :: '\n' :: replaceAllNE u nl3 nl2) (k + 2)
                = capNlAux 2 (replaceAllNE u nl3 nl2) (k + 2) := by
              rw [capNlAux_nl, if_neg (by omega), capNlAux_nl, if_neg (by omega)]
            have hR : capNlAux 2 ('\n' :: '\n' :: '\n' :: u) (k + 2)
                = capNlAux 2 u (k + 2) := by
              rw [capNlAux_nl, if_neg (by omega), capNlAux_nl, if_neg (by omega),
                capNlAux_nl, if_neg (by omega)]
            rw [hL, hR, ih u hulen (k + 2)]
        case isFalse =>
          have htlen : t.length ≤ n := by
            simp only [List.length_cons] at hs
            omega
          by_cases hc2 : c = '\n'
          · subst hc2
            rw [capNlAux_nl, capNlAux_nl]
            by_cases hk : k < 2
            · rw [if_pos hk, if_pos hk, ih t htlen (k + 1)]
            · rw [if_neg hk, if_neg hk, ih t htlen k]
          · rw [capNlAux_other 2 c _ k hc2, capNlAux_other 2 c t k hc2, ih t htlen 0]
  exact main s.length s le_rfl k

/-- Enough fuel brings the collapse loop to its fixed point, which is exactly
the newline runs of the input capped at two characters. -/
theorem collapseNlFuel_eq_squeeze (n : Nat) (s : Str) (hs : s.length ≤ n) :
    collapseNlFuel n s = squeezeNl s := by
  induction n generalizing s with
  | zero =>
    have : s = [] := List.eq_nil_of_length_eq_zero (Nat.le_zero.mp hs)
    subst this
    simp [collapseNlFuel, squeezeNl, capNlAux]
  | succ n ih =>
    simp only [collapseNlFuel]
    by_cases hc : containsSub s nl3 = true
    · rw [if_pos hc]
      have h3 : nl3 ≠ ([] : Str) := by simp [nl3]
      have hlt : (replace_all s nl3 nl2).length < s.length := by
        rw [replace_all, if_neg h3]
        exact replaceAllNE_length_lt nl3 nl2 h3 (by simp [nl3, nl2]) s hc
      rw [ih (replace_all s nl3 nl2) (by omega)]
      rw [replace_all, if_neg h3]
      exact capNlAux_replace_pass s 0
    · rw [if_neg hc]
      rw [squeezeNl, capNlAux_eq_self s 0 (by simpa using (by revert hc; cases containsSub s nl3 <;> simp))]

/-- The collapse loop of delete_line_range caps every newline run at two. -/
theorem collapseNl_eq_squeeze (s : Str) : collapseNl s = squeezeNl s :=
  collapseNlFuel_eq_squeeze s.length s le_rfl

/-- The collapse loop reaches its fixed point: no "\n\n\n" remains. -/
theorem collapseNlFuel_no_nl3 (n : Nat) (s : Str) (hs : s.length ≤ n) :
    containsSub (collapseNlFuel n s) nl3 = false := by
  induction n generalizing s with
  | zero =>
    have : s = [] := List.eq_nil_of_length_eq_zero (Nat.le_zero.mp hs)
    subst this
    rfl
  | succ n ih =>
    simp only [collapseNlFuel]
    by_cases hc : containsSub s nl3 = true
    · rw [if_pos hc]
      have h3 : nl3 ≠ ([] : Str) := by simp [nl3]
      have hlt : (replace_all s nl3 nl2).length < s.length := by
        rw [replace_all, if_neg h3]
        exact replaceAllNE_length_lt nl3 nl2 h3 (by simp [nl3, nl2]) s hc
      exact ih (replace_all s nl3 nl2) (by omega)
    · rw [if_neg hc]
      revert hc
      cases containsSub s nl3 <;> simp

/-- Appending one newline to a triple-free string that does not already end in a
newline cannot create a newline triple. -/
theorem no_nl3_append_nl (c : Str) (h1 : containsSub c nl3 = false) (h2 : endsNl c = false) :
    containsSub (c ++ ['\n']) nl3 = false := by
  by_contra hq
  have hc : containsSub (c ++ ['\n']) nl3 = true := by
    revert hq; cases containsSub (c ++ ['\n']) nl3 <;> simp
  obtain ⟨u, v, huv⟩ := (containsSub_iff _ _).mp hc
  rcases List.eq_nil_or_concat v with rfl | ⟨v2, x, rfl⟩
  · rw [List.append_nil] at huv
    have hsplit : u ++ nl3 = (u ++ nl2) ++ ['\n'] := by simp [nl3, nl2]
    rw [hsplit] at huv
    obtain ⟨hc2, _⟩ := List.append_inj' huv rfl
    rw [← hc2] at h2
    simp [endsNl, nl2] at h2
  · have huv2 : (u ++ nl3 ++ v2) ++ [x] = c ++ ['\n'] := by
      rw [← huv]; simp
    obtain ⟨hc2, _⟩ := List.append_inj' huv2 rfl
    have : containsSub c nl3 = true := (containsSub_iff _ _).mpr ⟨u, v2, hc2⟩
    rw [this] at h1
    cases h1

/-- C8 counterexample: deleting line 2 of "a\nX\n\n\nb" leaves the line list
[a, blank, blank, b], a run of exactly two blank lines, which the claim says is
left unchanged (result "a\n\n\nb"); the code instead collapses it to one blank
line and returns "a\n\nb". -/
theorem delete_line_range_collapse_cex :
    delete_line_range (strOf "a\nX\n\n\nb") 2 2 = some (strOf "a\n\nb") ∧
    delete_line_range (strOf "a\nX\n\n\nb") 2 2 ≠ some (strOf "a\n\n\nb") := by
  decide

/-- C8 (amended): the collapse step of delete_line_range caps every run of
consecutive newline characters at two (equivalently: any resulting run of two
or more consecutive blank lines collapses to exactly one blank line, and runs
of at most one blank line are unchanged, squeezeNl being exactly that capping);
consequently no delete_line_range result ever contains three consecutive
newline characters. -/
theorem delete_line_range_blank_collapse :
    (∀ s : Str, collapseNl s = squeezeNl s) ∧
    (∀ (content : Str) (a b : Nat) (r : Str), delete_line_range content a b = some r →
      containsSub r nl3 = false) := by
  refine ⟨collapseNl_eq_squeeze, ?_⟩
  intro content a b r h
  simp only [delete_line_range] at h
  split at h
  · cases h
  · set base := buildIdx (deleteChunk (a - 1) (b - 1) (rsLines content).length) 0
      (rsLines content) with hbase
    have hfix : containsSub (collapseNl base) nl3 = false :=
      collapseNlFuel_no_nl3 base.length base le_rfl
    split at h
    case isTrue hcond =>
      cases h
      exact no_nl3_append_nl (collapseNl base) hfix
        (by
          have := hcond.2.2
          revert this
          cases endsNl (collapseNl base) <;> simp)
    case isFalse hcond =>
      cases h
      exact hfix

/-- C8 witness: the amended theorem evaluated at concrete inputs. -/
theorem delete_line_range_blank_collapse_witness :
    collapseNl (strOf "a\n\n\n\nb") = squeezeNl (strOf "a\n\n\n\nb") ∧
    containsSub (strOf "a\n\nb") nl3 = false :=
  ⟨delete_line_range_blank_collapse.1 (strOf "a\n\n\n\nb"),
   delete_line_range_blank_collapse.2 (strOf "a\nX\n\n\nb") 2 2 (strOf "a\n\nb") (by decide)⟩

/-- C5 counterexample: a DeleteMatch whose search matches no line of
"line1\nline2\n" produces the plain Ok outcome variant, not the Warning
variant that the claim's "success-with-warning" requires. -/
theorem delete_match_zero_not_warning_cex :
    (editApplyOutcome [("f", strOf "line1\nline2\n")]
      (.deleteMatch "f" (strOf "nonexistent")) 0).isWarning = false ∧
    (editApplyOutcome [("f", strOf "line1\nline2\n")]
      (.deleteMatch "f" (strOf "nonexistent")) 0).isOk = true := by
  decide

/-- C5 (amended): a ReplaceAll with a non-empty search that has zero
occurrences produces an error outcome (search_not_found, file untouched),
while a DeleteMatch with a non-empty search matching zero lines produces a
plain success (the Ok variant whose message notes that nothing was deleted,
not the Warning variant), never an error, and leaves the file unchanged. -/
theorem replace_all_fails_delete_match_succeeds
    (fs : FS) (path : String) (content search rep : Str) (i : Nat)
    (hget : fsGet fs path = some content) (hs : search ≠ []) :
    (count_occurrences content search = 0 →
      (editApplyOutcome fs (.replaceAll path search rep) i).isSuccess = false ∧
      applyEditFS fs (.replaceAll path search rep) =
        (fs, .error (.searchNotFound path (truncate_preview search 200)
          (find_closest_matches content search (Rat.divInt 1 2) 3)))) ∧
    ((∀ l ∈ rsLines content, containsSub l search = false) →
      (editApplyOutcome fs (.deleteMatch path search) i).isOk = true ∧
      (editApplyOutcome fs (.deleteMatch path search) i).isWarning = false ∧
      applyEditFS fs (.deleteMatch path search) =
        (fs, .ok "No matching lines found (nothing deleted)")) := by
  constructor
  · intro hzero
    have happ : applyEditFS fs (.replaceAll path search rep) =
        (fs, .error (.searchNotFound path (truncate_preview search 200)
          (find_closest_matches content search (Rat.divInt 1 2) 3))) := by
      simp only [applyEditFS, applyCore, readThen, hget, replaceAllCore, Edit.path,
        if_neg hs, hzero, if_true]
    refine ⟨?_, happ⟩
    simp only [editApplyOutcome, happ, outcomeOf, outcomeFromError, EditOutcome.isSuccess]
  · intro hnone
    have hcount : (delete_matching_lines content search).2 = 0 := by
      simp only [delete_matching_lines]
      have : (rsLines content).filter (fun l => ! containsSub l search) = rsLines content :=
        List.filter_eq_self.mpr (fun l hl => by rw [hnone l hl]; rfl)
      rw [this, Nat.sub_self]
    have happ : applyEditFS fs (.deleteMatch path search) =
        (fs, .ok "No matching lines found (nothing deleted)") := by
      simp only [applyEditFS, applyCore, readThen, hget, deleteMatchCore, Edit.path,
        if_neg hs, hcount, if_true]
    refine ⟨?_, ?_, happ⟩
    · simp only [editApplyOutcome, happ, outcomeOf, EditOutcome.isOk]
    · simp only [editApplyOutcome, happ, outcomeOf, EditOutcome.isWarning]

/-- C5 witness: the amended theorem evaluated on a concrete file. -/
theorem replace_all_fails_delete_match_succeeds_witness :
    (editApplyOutcome [("f", strOf "keep\n")] (.replaceAll "f" (strOf "zzz") (strOf "y")) 0).isSuccess
      = false ∧
    (editApplyOutcome [("f", strOf "keep\n")] (.deleteMatch "f" (strOf "zzz")) 0).isOk = true :=
  ⟨((replace_all_fails_delete_match_succeeds [("f", strOf "keep\n")] "f" (strOf "keep\n")
      (strOf "zzz") (strOf "y") 0 (by decide) (by decide)).1 (by decide)).1,
   ((replace_all_fails_delete_match_succeeds [("f", strOf "keep\n")] "f" (strOf "keep\n")
      (strOf "zzz") (strOf "y") 0 (by decide) (by decide)).2 (by decide)).1⟩

/-- Stripping trailing newlines leaves a string that does not end in one. -/
theorem endsNl_dropNlEnd (s : Str) : endsNl (dropNlEnd s) = false := by
  unfold dropNlEnd endsNl
  rw [List.getLast?_reverse]
  cases h : s.reverse.dropWhile (fun c => c = '\n') with
  | nil => simp
  | cons a t =>
    have hna := List.head?_dropWhile_not (fun c => c = '\n') s.reverse
    rw [h] at hna
    simp only [List.head?, Option.mem_some_iff] at hna
    have : a ≠ '\n' := by simpa using hna
    simp [this]

/-- C7 counterexample: appending "\nb" to a file "a\n" leaves two line breaks
between the contents ("a\n\nb"), not the single separating break the claim
requires. -/
theorem append_double_newline_cex :
    appendContent (strOf "a\n") (strOf "\nb") = strOf "a\n\nb" ∧
    appendContent (strOf "a\n") (strOf "\nb") ≠ singleSepJoin (strOf "a\n") (strOf "\nb") := by
  decide

/-- C7 (amended): Append yields exactly one separating line break when the
non-empty existing content ends with at most one line break and the new
content does not start with one; Prepend yields exactly one when the new
content ends with at most one line break and the existing content does not
start with one.  (Pre-existing extra breaks on the unchecked side are kept, as
the counterexample shows.)  All other bytes of both contents are preserved. -/
theorem append_prepend_single_separator :
    (∀ old new : Str, old ≠ [] →
      (old = dropNlEnd old ∨ old = dropNlEnd old ++ ['\n']) →
      dropNlStart new = new →
      appendContent old new = singleSepJoin old new) ∧
    (∀ fileC content : Str,
      (content = dropNlEnd content ∨ content = dropNlEnd content ++ ['\n']) →
      dropNlStart fileC = fileC →
      prependContent content fileC = singleSepJoin content fileC) := by
  constructor
  · intro old new hne hro hnew
    rcases hro with h0 | h1
    · have hend : endsNl old = false := by rw [h0]; exact endsNl_dropNlEnd old
      rw [appendContent, if_neg (by simp [hend, hne])]
      unfold singleSepJoin
      rw [← h0, hnew]
    · have hend : endsNl old = true := by rw [h1]; simp [endsNl, List.getLast?_concat]
      rw [appendContent, if_pos (Or.inl hend)]
      unfold singleSepJoin
      rw [hnew]
      conv_lhs => rw [h1]
      simp
  · intro fileC content hro hfc
    rcases hro with h0 | h1
    · have hend : endsNl content = false := by rw [h0]; exact endsNl_dropNlEnd content
      rw [prependContent, if_neg (by simp [hend])]
      unfold singleSepJoin
      rw [← h0, hfc]
    · have hend : endsNl content = true := by rw [h1]; simp [endsNl, List.getLast?_concat]
      rw [prependContent, if_pos hend]
      unfold singleSepJoin
      rw [hfc]
      conv_lhs => rw [h1]
      simp

/-- C7 witness: both amended statements evaluated on concrete contents. -/
theorem append_prepend_single_separator_witness :
    appendContent (strOf "a\n") (strOf "b") = singleSepJoin (strOf "a\n") (strOf "b") ∧
    prependContent (strOf "c") (strOf "f\n") = singleSepJoin (strOf "c") (strOf "f\n") :=
  ⟨append_prepend_single_separator.1 (strOf "a\n") (strOf "b") (by decide)
      (by decide) (by decide),
   append_prepend_single_separator.2 (strOf "f\n") (strOf "c") (by decide) (by decide)⟩

/-- Appending a nonempty tail decides the trailing newline. -/
theorem endsNl_append_right (x l : Str) (h : l ≠ []) : endsNl (x ++ l) = endsNl l := by
  simp [endsNl, List.getLast?_append_of_ne_nil x h]

/-- A newline-free string does not end in a newline. -/
theorem endsNl_of_no_nl (l : Str) (h : '\n' ∉ l) : endsNl l = false := by
  unfold endsNl
  cases hg : l.getLast? with
  | none => simp
  | some a =>
    have : a ∈ l := List.mem_of_mem_getLast? (by simp [hg])
    have ha : a ≠ '\n' := fun hq => h (hq ▸ this)
    simp [ha]

/-- Appending a newline gives a trailing newline. -/
theorem endsNl_concat_nl (x : Str) : endsNl (x ++ ['\n']) = true := by
  simp [endsNl, List.getLast?_concat]

/-- The loop of insert_before_line (also used by insert_at_line) ends with the
last line of the file. -/
theorem buildIdx_insertBefore_last (nc : Str) (i total : Nat) :
    ∀ (lines : List Str) (j : Nat), lines ≠ [] → j + lines.length = total →
      ∃ x ll, lines.getLast? = some ll ∧
        buildIdx (insertBeforeChunk i total nc) j lines = x ++ ll := by
  intro lines
  induction lines with
  | nil => intro j h; exact absurd rfl h
  | cons l r ih =>
    intro j _ htot
    cases r with
    | nil =>
      refine ⟨(if j = i then nc ++ ['\n'] else []), l, by simp, ?_⟩
      show insertBeforeChunk i total nc j l ++ buildIdx (insertBeforeChunk i total nc) (j + 1) [] = _
      unfold insertBeforeChunk
      have hj : ¬ (j < total - 1) := by
        simp only [List.length_cons, List.length_nil] at htot
        omega
      rw [if_neg hj]
      simp [buildIdx]
    | cons m rest =>
      obtain ⟨x, ll, hll, hb⟩ := ih (j + 1) (by simp) (by
        simp only [List.length_cons] at htot ⊢
        omega)
      refine ⟨insertBeforeChunk i total nc j l ++ x, ll,
        by simpa [List.getLast?_cons_cons] using hll, ?_⟩
      show insertBeforeChunk i total nc j l
          ++ buildIdx (insertBeforeChunk i total nc) (j + 1) (m :: rest) = _
      rw [hb, List.append_assoc]

/-- A file whose line list is nonempty is itself nonempty. -/
theorem content_ne_nil_of_lines (c : Str) (h : rsLines c ≠ []) : c ≠ [] := by
  intro hc
  subst hc
  exact h rfl

/-- The trailing-newline fix of the insert operations preserves a trailing
newline of the original content. -/
theorem endsNl_trailFix (c w : Str) (hend : endsNl c = true) :
    endsNl (if endsNl c ∧ ¬ endsNl w then w ++ ['\n'] else w) = true := by
  by_cases hb : endsNl w
  · rw [if_neg (by simp [hb])]
    exact hb
  · rw [if_pos ⟨hend, by simp [hb]⟩]
    exact endsNl_concat_nl w

/-- The trailing-newline fix of delete_line_range preserves a trailing newline
on nonempty results. -/
theorem endsNl_trailFix2 (c w : Str) (hend : endsNl c = true)
    (hne : (if endsNl c ∧ w ≠ [] ∧ ¬ endsNl w then w ++ ['\n'] else w) ≠ []) :
    endsNl (if endsNl c ∧ w ≠ [] ∧ ¬ endsNl w then w ++ ['\n'] else w) = true := by
  by_cases hw : w = []
  · subst hw
    rw [if_neg (by simp)] at hne
    exact absurd rfl hne
  · by_cases hb : endsNl w
    · rw [if_neg (by simp [hb])]
      exact hb
    · rw [if_pos ⟨hend, hw, by simp [hb]⟩]
      exact endsNl_concat_nl w

/-- The trailing-newline fix of delete_matching_lines preserves a trailing
newline on nonempty results. -/
theorem endsNl_trailFix3 (c o : Str) (hend : endsNl c = true)
    (hne : (if endsNl c ∧ o ≠ [] then o ++ ['\n'] else o) ≠ []) :
    endsNl (if endsNl c ∧ o ≠ [] then o ++ ['\n'] else o) = true := by
  by_cases ho : o = []
  · subst ho
    rw [if_neg (by simp)] at hne
    exact absurd rfl hne
  · rw [if_pos ⟨hend, ho⟩]
    exact endsNl_concat_nl o

/-- C10 counterexample: content "a\nb\nc" has no trailing newline, yet deleting
its last line yields "a\nb\n", which ends in a newline the content never had. -/
theorem line_ops_trailing_newline_cex :
    endsNl (strOf "a\nb\nc") = false ∧
    delete_line_range (strOf "a\nb\nc") 3 3 = some (strOf "a\nb\n") ∧
    endsNl (strOf "a\nb\n") = true := by
  decide

/-- C10 (amended): every successful line-based operation preserves a trailing
newline of the content (on a nonempty result); for content without a trailing
newline, insert_before_line never appends one, and insert_at_line never does
when the inserted text is nonempty without its own trailing newline — but
delete_line_range (range reaching the last line), insert_after_line (anchor on
the last line) and delete_matching_lines (deletion leaving a blank last line)
can, as the counterexample shows. -/
theorem line_ops_newline_invariant :
    (∀ (c a nc r : Str) (ln : Nat), insert_after_line c a nc = some (r, ln) →
      endsNl c = true → endsNl r = true) ∧
    (∀ (c a nc r : Str) (ln : Nat), insert_before_line c a nc = some (r, ln) →
      endsNl c = true → endsNl r = true) ∧
    (∀ (c : Str) (n : Nat) (nc r : Str), insert_at_line c n nc = some r →
      endsNl c = true → endsNl r = true) ∧
    (∀ (c : Str) (x y : Nat) (r : Str), delete_line_range c x y = some r →
      endsNl c = true → r ≠ [] → endsNl r = true) ∧
    (∀ c s : Str, endsNl c = true → (delete_matching_lines c s).1 ≠ [] →
      endsNl (delete_matching_lines c s).1 = true) ∧
    (∀ (c a nc r : Str) (ln : Nat), insert_before_line c a nc = some (r, ln) →
      endsNl c = false → endsNl r = false) ∧
    (∀ (c : Str) (n : Nat) (nc r : Str), insert_at_line c n nc = some r →
      endsNl c = false → nc ≠ [] → endsNl nc = false → endsNl r = false) := by
  refine ⟨?_, ?_, ?_, ?_, ?_, ?_, ?_⟩
  · intro c a nc r ln h hend
    simp only [insert_after_line] at h
    cases hfi : findIdxCont a (rsLines c) with
    | none => rw [hfi] at h; cases h
    | some i =>
      rw [hfi] at h
      simp only [Option.some.injEq, Prod.mk.injEq] at h
      rw [← h.1]
      exact endsNl_trailFix c _ hend
  · intro c a nc r ln h hend
    simp only [insert_before_line] at h
    cases hfi : findIdxCont a (rsLines c) with
    | none => rw [hfi] at h; cases h
    | some i =>
      rw [hfi] at h
      simp only [Option.some.injEq, Prod.mk.injEq] at h
      rw [← h.1]
      exact endsNl_trailFix c _ hend
  · intro c n nc r h hend
    simp only [insert_at_line] at h
    split at h
    · cases h
    · simp only [Option.some.injEq] at h
      rw [← h]
      exact endsNl_trailFix c _ hend
  · intro c x y r h hend hne
    simp only [delete_line_range] at h
    split at h
    · cases h
    · simp only [Option.some.injEq] at h
      rw [← h]
      rw [← h] at hne
      exact endsNl_trailFix2 c _ hend hne
  · intro c s hend hne
    simp only [delete_matching_lines] at hne ⊢
    exact endsNl_trailFix3 c _ hend hne
  · intro c a nc r ln h hend
    simp only [insert_before_line] at h
    cases hfi : findIdxCont a (rsLines c) with
    | none => rw [hfi] at h; cases h
    | some i =>
      rw [hfi] at h
      simp only [Option.some.injEq, Prod.mk.injEq] at h
      have hlines : rsLines c ≠ [] := by
        intro hq
        rw [hq] at hfi
        cases hfi
      obtain ⟨x, ll, hll, hb⟩ := buildIdx_insertBefore_last nc i (rsLines c).length
        (rsLines c) 0 hlines (by omega)
      obtain ⟨ll2, hll2, hne2⟩ :=
        rsLines_getLast_ne_nil c (content_ne_nil_of_lines c hlines) hend
      have hlleq : ll = ll2 := by
        rw [hll] at hll2
        exact Option.some_inj.mp hll2
      subst hlleq
      have hnl : '\n' ∉ ll := rsLines_no_nl c ll (List.mem_of_mem_getLast? (by simp [hll]))
      rw [← h.1, if_neg (by simp [hend]), hb, endsNl_append_right x ll hne2]
      exact endsNl_of_no_nl ll hnl
  · intro c n nc r h hend hnc hencn
    simp only [insert_at_line] at h
    split at h
    case isFalse hrange =>
      simp only [Option.some.injEq] at h
      rw [← h, if_neg (by simp [hend])]
      by_cases hcase : (rsLines c).length ≤ n - 1
      · rw [if_pos hcase, endsNl_append_right _ nc hnc]
        exact hencn
      · rw [if_neg hcase]
        have hlines : rsLines c ≠ [] := by
          intro hq
          rw [hq] at hcase
          simp at hcase
        obtain ⟨x, ll, hll, hb⟩ := buildIdx_insertBefore_last nc (n - 1) (rsLines c).length
          (rsLines c) 0 hlines (by omega)
        obtain ⟨ll2, hll2, hne2⟩ :=
          rsLines_getLast_ne_nil c (content_ne_nil_of_lines c hlines) hend
        have hlleq : ll = ll2 := by
          rw [hll] at hll2
          exact Option.some_inj.mp hll2
        subst hlleq
        have hnl : '\n' ∉ ll := rsLines_no_nl c ll (List.mem_of_mem_getLast? (by simp [hll]))
        rw [hb, endsNl_append_right x ll hne2]
        exact endsNl_of_no_nl ll hnl
    case isTrue => cases h

/-- C10 witness: all seven parts evaluated on concrete contents. -/
theorem line_ops_newline_invariant_witness :
    endsNl (strOf "a\nx\nb\n") = true ∧
    endsNl (strOf "a\nc\n") = true ∧
    endsNl (strOf "a\n") = true ∧
    endsNl (strOf "a\nx\nb") = false := by
  refine ⟨?_, ?_, ?_, ?_⟩
  · exact line_ops_newline_invariant.1 (strOf "a\nb\n") (strOf "a") (strOf "x")
      (strOf "a\nx\nb\n") 2 (by decide) (by decide)
  · exact line_ops_newline_invariant.2.2.2.1 (strOf "a\nb\nc\n") 2 2 (strOf "a\nc\n")
      (by decide) (by decide) (by decide)
  · exact line_ops_newline_invariant.2.2.2.2.1 (strOf "a\nb\n") (strOf "b")
      (by decide) (by decide)
  · exact line_ops_newline_invariant.2.2.2.2.2.1 (strOf "a\nb") (strOf "b") (strOf "x")
      (strOf "a\nx\nb") 2 (by decide) (by decide)

/-- Leading spaces are consumed by trim_start. -/
theorem rsTrimStart_spaces (n : Nat) (l : Str) :
    rsTrimStart (spacesN n ++ l) = rsTrimStart l := by
  induction n with
  | zero => simp [spacesN]
  | succ m ih =>
    rw [spacesN, List.replicate_succ, List.cons_append]
    show rsTrimStart (' ' :: (spacesN m ++ l)) = rsTrimStart l
    rw [rsTrimStart, List.dropWhile_cons_of_pos (by simp [isWs])]
    exact ih

/-- Converting one space-aligned line between space widths rescales its indent. -/
theorem convLineSS_aligned (a w : Nat) (ha : 1 ≤ a) (k : Nat) (b : Str)
    (hb : rsTrimStart b = b) :
    convLineSS a w (spacesN (k * a) ++ b) = spacesN (k * w) ++ b := by
  simp only [convLineSS]
  rw [rsTrimStart_spaces, hb]
  have hlen : (spacesN (k * a) ++ b).length - b.length = k * a := by
    simp [spacesN]
  rw [hlen]
  by_cases hk : k * a = 0
  · have hk0 : k = 0 := by
      rcases Nat.mul_eq_zero.mp hk with h | h
      · exact h
      · omega
    rw [if_pos hk, hk0]
    simp
  · rw [if_neg hk, Nat.mul_div_cancel _ (by omega : 0 < a), Nat.mul_mod_left,
      Nat.add_zero]

/-- A space-aligned nonempty line stays nonempty under width conversion. -/
theorem convLineSS_aligned_ne_nil (a w : Nat) (ha : 1 ≤ a) (hw : 1 ≤ w) (k : Nat) (b : Str)
    (hb : rsTrimStart b = b) (hne : spacesN (k * a) ++ b ≠ []) :
    spacesN (k * w) ++ b ≠ [] := by
  intro hq
  rcases List.append_eq_nil.mp hq with ⟨h1, h2⟩
  subst h2
  have hk : k = 0 := by
    have := congrArg List.length h1
    simp [spacesN] at this
    rcases this with h | h
    · exact h
    · omega
  subst hk
  simp [spacesN] at hne

/-- Unfolding convert_to_target_style between two distinct space widths. -/
theorem convert_spaces_ne (s t : Nat) (hst : (IndentStyle.spaces s) ≠ (IndentStyle.spaces t))
    (text : Str) :
    convert_to_target_style text (.spaces s) (.spaces t)
      = joinNl ((rsLines text).map (convLineSS s t)) := by
  rw [convert_to_target_style, if_neg hst]

/-- C9 counterexample: the text "x\n" has no indentation at all, yet the
round trip through convert_to_target_style between Spaces(2) and Spaces(4)
drops the trailing newline: the result is "x", not "x\n". -/
theorem convert_round_trip_cex :
    convert_to_target_style (convert_to_target_style (strOf "x\n")
        (.spaces 2) (.spaces 4)) (.spaces 4) (.spaces 2) = strOf "x" ∧
    strOf "x" ≠ strOf "x\n" := by
  decide

/-- C9 (amended): for positive space widths, a text with no carriage returns
and no trailing newline, every line of which is a whole number of source-width
space units followed by a body with no leading whitespace, converts from
Spaces(a) to Spaces(w) and back to exactly itself. -/
theorem convert_round_trip (a w : Nat) (ha : 1 ≤ a) (hw : 1 ≤ w) (text : Str)
    (hcr : '\r' ∉ text) (hend : endsNl text = false)
    (halign : ∀ l ∈ rsLines text, spaceAligned a l) :
    convert_to_target_style (convert_to_target_style text (.spaces a) (.spaces w))
      (.spaces w) (.spaces a) = text := by
  by_cases haw : a = w
  · subst haw
    rw [convert_to_target_style, if_pos rfl, convert_to_target_style, if_pos rfl]
  · have hs1 : (IndentStyle.spaces a) ≠ (IndentStyle.spaces w) := by simp [haw]
    have hs2 : (IndentStyle.spaces w) ≠ (IndentStyle.spaces a) := by simp [Ne.symm haw]
    rw [convert_spaces_ne a w hs1 text, convert_spaces_ne w a hs2]
    by_cases htext : text = []
    · subst htext
      rfl
    · have hlne : rsLines text ≠ [] := by
        intro hq
        have := joinNl_rsLines text hcr hend
        rw [hq] at this
        exact htext this.symm
      have hlines2 : rsLines (joinNl ((rsLines text).map (convLineSS a w)))
          = (rsLines text).map (convLineSS a w) := by
        apply rsLines_joinNl
        · simp [hlne]
        · intro l hl
          obtain ⟨l0, hl0, rfl⟩ := List.mem_map.mp hl
          obtain ⟨k, b, rfl, hb⟩ := halign l0 hl0
          rw [convLineSS_aligned a w ha k b hb]
          intro hmem
          rcases List.mem_append.mp hmem with hm | hm
          · exact absurd (List.eq_of_mem_replicate hm) (by decide)
          · exact rsLines_no_nl text _ hl0 (List.mem_append.mpr (Or.inr hm))
        · intro l hl
          obtain ⟨l0, hl0, rfl⟩ := List.mem_map.mp hl
          obtain ⟨k, b, rfl, hb⟩ := halign l0 hl0
          rw [convLineSS_aligned a w ha k b hb]
          intro hmem
          rcases List.mem_append.mp hmem with hm | hm
          · exact absurd (List.eq_of_mem_replicate hm) (by decide)
          · exact hcr (rsLines_sub text _ hl0 '\r' (List.mem_append.mpr (Or.inr hm)))
        · rw [List.getLast?_map]
          obtain ⟨ll, hll, hllne⟩ := rsLines_getLast_ne_nil text htext hend
          rw [hll]
          obtain ⟨k, b, hdec, hb⟩ := halign ll (List.mem_of_mem_getLast? (by simp [hll]))
          rw [Option.map_some']
          intro hq
          have hq2 := Option.some_inj.mp hq
          rw [hdec, convLineSS_aligned a w ha k b hb] at hq2
          exact convLineSS_aligned_ne_nil a w ha hw k b hb (hdec ▸ hllne) hq2
      rw [hlines2, List.map_map]
      have hmapid : (rsLines text).map (convLineSS w a ∘ convLineSS a w) = rsLines text := by
        apply List.map_congr_left ?_ |>.trans (List.map_id _)
        intro l hl
        obtain ⟨k, b, rfl, hb⟩ := halign l hl
        show convLineSS w a (convLineSS a w (spacesN (k * a) ++ b)) = spacesN (k * a) ++ b
        rw [convLineSS_aligned a w ha k b hb, convLineSS_aligned w a hw k b hb]
      rw [hmapid, joinNl_rsLines text hcr hend]

/-- C9 witness: the amended round trip on a concretely indented text. -/
theorem convert_round_trip_witness :
    convert_to_target_style (convert_to_target_style (strOf "if x:\n    y\n        z")
        (.spaces 4) (.spaces 2)) (.spaces 2) (.spaces 4) = strOf "if x:\n    y\n        z" :=
  convert_round_trip 4 2 (by decide) (by decide) (strOf "if x:\n    y\n        z")
    (by decide) (by decide) (by
      intro l hl
      have hm : l ∈ rsLines (strOf "if x:\n    y\n        z") := hl
      have : rsLines (strOf "if x:\n    y\n        z")
          = [strOf "if x:", strOf "    y", strOf "        z"] := by decide
      rw [this] at hm
      rcases List.mem_cons.mp hm with rfl | hm
      · exact ⟨0, strOf "if x:", by decide, by decide⟩
      rcases List.mem_cons.mp hm with rfl | hm
      · exact ⟨1, strOf "y", by decide, by decide⟩
      rcases List.mem_cons.mp hm with rfl | hm
      · exact ⟨2, strOf "z", by decide, by decide⟩
      cases hm)

/-- A substring of the right part is a substring of an appended string. -/
theorem strContainsB_append_right (a b sub : String)
    (h : strContainsB b sub = true) : strContainsB (a ++ b) sub = true := by
  have hd : (a ++ b).toList = a.toList ++ b.toList := String.data_append a b
  rw [strContainsB, hd]
  exact containsSub_append_right _ _ _ h

/-- Every Ok message produced by simulate_edit carries the dry-run marker. -/
theorem simulateRes_ok_dry (fs : FS) (e : Edit) (m : String)
    (h : simulateRes fs e = .ok m) : strContainsB m "(dry-run)" = true := by
  cases e <;>
    simp only [simulateRes, simulateReplace, simulateAnchor] at h <;>
    (repeat' split at h) <;>
    first
      | exact Except.noConfusion h
      | (injection h with h2; subst h2;
         first
           | decide
           | exact strContainsB_append_right _ _ "(dry-run)" (by decide))

/-- apply_edit in dry-run mode leaves the transaction state untouched and
returns the simulated outcome. -/
theorem applyEditTx_dry (st : TxState) (e : Edit) (i : Nat) :
    applyEditTx st e i true
      = (st, outcomeOf i e.path e.type_name (simulateRes st.fs e)) := by
  rw [applyEditTx, if_pos rfl]

/-- add_outcome always appends the outcome to the edits list. -/
theorem add_outcome_edits (r : ApplyResult) (o : EditOutcome) :
    (r.add_outcome o).edits = r.edits ++ [o] := by
  rw [ApplyResult.add_outcome]
  split <;> rfl

/-- One step of the transaction loop in dry-run mode: the state is passed on
unchanged and the early-return guard never fires. -/
theorem applyLoop_dry_cons (p : Bool) (st : TxState) (i : Nat) (acc : ApplyResult)
    (e : Edit) (rest : List Edit) :
    applyLoop true p st i acc (e :: rest)
      = applyLoop true p st (i + 1)
          (acc.add_outcome (outcomeOf i e.path e.type_name (simulateRes st.fs e))) rest := by
  simp only [applyLoop, applyEditTx_dry]
  rw [if_neg (by simp)]

/-- The dry-run loop never changes the transaction state and never requests a
rollback. -/
theorem applyLoop_dry_state (p : Bool) (st : TxState) (i : Nat) (acc : ApplyResult)
    (es : List Edit) :
    (applyLoop true p st i acc es).1 = st ∧ (applyLoop true p st i acc es).2.2 = false := by
  induction es generalizing st i acc with
  | nil => exact ⟨rfl, rfl⟩
  | cons e rest ih =>
    rw [applyLoop_dry_cons]
    exact ih st (i + 1) _

/-- Every Ok outcome accumulated by the dry-run loop carries the dry-run
marker in its message. -/
theorem applyLoop_dry_messages (p : Bool) (st : TxState) (i : Nat) (acc : ApplyResult)
    (es : List Edit)
    (hacc : ∀ o ∈ acc.edits, o.isOk = true →
      ∃ m, o.okMessage = some m ∧ strContainsB m "(dry-run)" = true) :
    ∀ o ∈ (applyLoop true p st i acc es).2.1.edits, o.isOk = true →
      ∃ m, o.okMessage = some m ∧ strContainsB m "(dry-run)" = true := by
  induction es generalizing st i acc with
  | nil => exact hacc
  | cons e rest ih =>
    rw [applyLoop_dry_cons]
    refine ih st (i + 1) _ ?_
    intro o ho hok
    rw [add_outcome_edits] at ho
    rcases List.mem_append.mp ho with hmem | hmem
    · exact hacc o hmem hok
    · obtain rfl := List.mem_singleton.mp hmem
      cases hres : simulateRes st.fs e with
      | ok msg =>
        exact ⟨msg, rfl, simulateRes_ok_dry st.fs e msg hres⟩
      | error err =>
        rw [hres] at hok
        cases err <;> simp [outcomeOf, outcomeFromError, EditOutcome.isOk] at hok

/-- C6: a batch run with dry_run = true leaves the filesystem exactly as it
was, the transaction loop ends in its initial state with an empty backup set
and no rollback (so no file is ever written, removed, created or backed up),
and every Ok outcome's message carries the "(dry-run)" qualifier. -/
theorem dry_run_frame (fs : FS) (edits : List Edit) (partialMode : Bool) :
    (apply_with_transaction fs edits true partialMode).1 = fs ∧
    (applyLoop true partialMode ⟨fs, []⟩ 0 ApplyResult.new edits).1 = ⟨fs, []⟩ ∧
    (applyLoop true partialMode ⟨fs, []⟩ 0 ApplyResult.new edits).2.2 = false ∧
    ∀ o ∈ (apply_with_transaction fs edits true partialMode).2.edits,
      o.isOk = true →
      ∃ m, o.okMessage = some m ∧ strContainsB m "(dry-run)" = true := by
  obtain ⟨h1, h2⟩ := applyLoop_dry_state partialMode ⟨fs, []⟩ 0 ApplyResult.new edits
  refine ⟨?_, h1, h2, ?_⟩
  · show (if (applyLoop true partialMode ⟨fs, []⟩ 0 ApplyResult.new edits).2.2
        then rollbackFS (applyLoop true partialMode ⟨fs, []⟩ 0 ApplyResult.new edits).1
        else (applyLoop true partialMode ⟨fs, []⟩ 0 ApplyResult.new edits).1.fs) = fs
    rw [h2, if_neg (by simp), h1]
  · exact applyLoop_dry_messages partialMode ⟨fs, []⟩ 0 ApplyResult.new edits
      (by intro o ho hok; simp [ApplyResult.new] at ho)

/-- A positive non-overlapping count implies the pattern occurs. -/
theorem countNE_pos_findSub (pat : Str) (hp : pat ≠ []) :
    ∀ s : Str, 0 < countNE s pat → (findSub s pat).isSome = true := by
  have hmap : ∀ o : Option Nat, (o.map (· + 1)).isSome = o.isSome := by
    intro o; cases o <;> rfl
  intro s
  induction s with
  | nil =>
    intro h
    rw [countNE_nil] at h
    omega
  | cons c t ih =>
    intro h
    rw [countNE_cons] at h
    rw [findSub]
    by_cases hs : startsWith (c :: t) pat = true
    · rw [if_pos hs]
      rfl
    · rw [if_neg hs]
      rw [if_neg (by simp [hs])] at h
      rw [hmap]
      exact ih h

/-- C4 counterexample: for content "  foo" and search "    foo" there is no
exact occurrence, normalized matching succeeds (and Replace applies it with an
indentation-adjustment message), but ReplaceAll fails with search_not_found:
it never tries the normalized stage. -/
theorem replace_all_no_normalization_cex :
    count_occurrences (strOf "  foo") (strOf "    foo") = 0 ∧
    find_with_normalization (strOf "  foo") (strOf "    foo")
      = .normalizedMatch (normWarning 1) 1 ∧
    replaceCore "f" (strOf "  foo") (strOf "    foo") (strOf "    bar")
      = .ok (.write (strOf "  bar"),
          "Replaced with indentation adjustment (" ++ normWarning 1 ++ ")") ∧
    replaceAllCore "f" (strOf "  foo") (strOf "    foo") (strOf "    bar")
      = .error (.searchNotFound "f" (truncate_preview (strOf "    foo") 200)
          (find_closest_matches (strOf "  foo") (strOf "    foo") (Rat.divInt 1 2) 3)) := by
  decide

/-- C4 (amended): with a non-empty search string, Replace follows the three
stage machine - an exact occurrence is applied (with a "Replaced 1 occurrence"
message), otherwise a successful normalization is applied with an
"indentation adjustment" message, otherwise the edit fails with search_not_found
carrying ranked closest matches; ReplaceAll however only has the exact stage:
zero occurrences fail immediately with search_not_found, with no normalized
attempt.  Ok results wrap into the Ok (non-Warning) outcome variant, and
search_not_found errors wrap into an error outcome carrying the closest
matches and a generated hint. -/
theorem replace_dispatch_state_machine (path : String) (content search rep : Str)
    (hne : search ≠ []) :
    (0 < count_occurrences content search →
      ∃ nc msg, replace_first content search rep = some nc ∧
        replaceCore path content search rep = .ok (.write nc, msg)) ∧
    (count_occurrences content search = 0 →
      ∀ r, replace_with_normalization content search rep = some r →
        replaceCore path content search rep
          = .ok (.write r.1, "Replaced with indentation adjustment (" ++ r.2 ++ ")")) ∧
    (count_occurrences content search = 0 →
      replace_with_normalization content search rep = none →
        replaceCore path content search rep
          = .error (.searchNotFound path (truncate_preview search 200)
              (find_closest_matches content search (Rat.divInt 1 2) 3))) ∧
    (0 < count_occurrences content search →
      replaceAllCore path content search rep
        = .ok (.write (replace_all content search rep),
            "Replaced " ++ toString (count_occurrences content search) ++ " occurrence(s)")) ∧
    (count_occurrences content search = 0 →
      replaceAllCore path content search rep
        = .error (.searchNotFound path (truncate_preview search 200)
            (find_closest_matches content search (Rat.divInt 1 2) 3))) ∧
    (∀ i ty cm, outcomeFromError i path ty
        (.searchNotFound path (truncate_preview search 200) cm)
      = .error i path ty "search_not_found"
          ("Search string not found in file: " ++ path)
          (some (truncate_preview search 200)) (some cm) (some (generate_hint cm))) ∧
    (∀ i ty msg, outcomeOf i path ty (.ok msg) = .ok i path ty none (some msg)) := by
  refine ⟨?_, ?_, ?_, ?_, ?_, ?_, ?_⟩
  · intro h
    have hc : 0 < countNE content search := by
      rw [count_occurrences, if_neg hne] at h
      exact h
    obtain ⟨pos, hpos⟩ := Option.isSome_iff_exists.mp (countNE_pos_findSub search hne content hc)
    have hnc : replace_first content search rep
        = some (content.take pos ++ rep ++ content.drop (pos + search.length)) := by
      rw [replace_first, hpos]
      rfl
    by_cases heq : (get_affected_lines content pos search.length).1
        = (get_affected_lines content pos search.length).2
    · refine ⟨_, "Replaced 1 occurrence (line "
          ++ toString (get_affected_lines content pos search.length).1 ++ ")", hnc, ?_⟩
      simp only [replaceCore, if_neg hne, if_pos h, hnc, find_literal, hpos]
      rw [if_pos heq]
    · refine ⟨_, "Replaced 1 occurrence (lines "
          ++ toString (get_affected_lines content pos search.length).1 ++ "-"
          ++ toString (get_affected_lines content pos search.length).2 ++ ")", hnc, ?_⟩
      simp only [replaceCore, if_neg hne, if_pos h, hnc, find_literal, hpos]
      rw [if_neg heq]
  · intro h r hr
    rw [replaceCore, if_neg hne, if_neg (by omega), hr]
  · intro h hnone
    rw [replaceCore, if_neg hne, if_neg (by omega), hnone]
  · intro h
    rw [replaceAllCore, if_neg hne, if_neg (by omega)]
  · intro h
    rw [replaceAllCore, if_neg hne, if_pos h]
  · intro i ty cm
    rfl
  · intro i ty msg
    rfl

/-- C4 witness: the amended dispatch at the counterexample inputs. -/
theorem replace_dispatch_state_machine_witness :
    replaceAllCore "f" (strOf "  foo") (strOf "    foo") (strOf "    bar")
      = .error (.searchNotFound "f" (truncate_preview (strOf "    foo") 200)
          (find_closest_matches (strOf "  foo") (strOf "    foo") (Rat.divInt 1 2) 3)) :=
  (replace_dispatch_state_machine "f" (strOf "  foo") (strOf "    foo") (strOf "    bar")
      (by decide)).2.2.2.2.1 (by decide)

/-- A substring of the left part is a substring of an appended string. -/
theorem strContainsB_append_left (a b sub : String)
    (h : strContainsB a sub = true) : strContainsB (a ++ b) sub = true := by
  have hd : (a ++ b).toList = a.toList ++ b.toList := String.data_append a b
  rw [strContainsB, hd]
  rw [strContainsB, containsSub_iff] at h
  rw [containsSub_iff]
  exact h.trans ⟨[], b.toList, by simp⟩

/-- lines() of a joined block of w-space-indented clean lines gives the lines
back. -/
theorem rsLines_indent_block (w : Nat) (hw : 0 < w) (bodies : List Str)
    (hne : bodies ≠ []) (hnl : ∀ b ∈ bodies, '\n' ∉ b) (hcr : ∀ b ∈ bodies, '\r' ∉ b) :
    rsLines (joinNl (bodies.map (fun b => spacesN w ++ b)))
      = bodies.map (fun b => spacesN w ++ b) := by
  apply rsLines_joinNl
  · simp [hne]
  · intro l hl
    obtain ⟨b, hb, rfl⟩ := List.mem_map.mp hl
    intro hm
    rcases List.mem_append.mp hm with h | h
    · exact absurd (List.eq_of_mem_replicate h) (by decide)
    · exact hnl b hb h
  · intro l hl
    obtain ⟨b, hb, rfl⟩ := List.mem_map.mp hl
    intro hm
    rcases List.mem_append.mp hm with h | h
    · exact absurd (List.eq_of_mem_replicate h) (by decide)
    · exact hcr b hb h
  · rw [List.getLast?_map]
    cases hg : bodies.getLast? with
    | none => exact absurd (List.getLast?_eq_none_iff.mp hg) hne
    | some x =>
      rw [Option.map_some']
      intro hq
      have hx := Option.some_inj.mp hq
      have := congrArg List.length hx
      simp [spacesN] at this
      omega

/-- adjust_indentation rescales a block of w₁-space-indented clean lines to
w₂ spaces. -/
theorem adjustIndent_block (w₁ w₂ : Nat) (hw : 0 < w₁) (reps : List Str) (hrne : reps ≠ [])
    (hnl : ∀ r ∈ reps, '\n' ∉ r) (hcr : ∀ r ∈ reps, '\r' ∉ r)
    (ht : ∀ r ∈ reps, rsTrimStart r = r) :
    adjustIndent (joinNl (reps.map (fun b => spacesN w₁ ++ b))) w₁ w₂
      = joinNl (reps.map (fun b => spacesN w₂ ++ b)) := by
  rw [adjustIndent, rsLines_indent_block w₁ hw reps hrne hnl hcr, List.map_map]
  congr 1
  apply List.map_congr_left
  intro r hr
  show adjustIndentLine w₁ w₂ (spacesN w₁ ++ r) = spacesN w₂ ++ r
  have hts : rsTrimStart (spacesN w₁ ++ r) = r := by
    rw [rsTrimStart_spaces, ht r hr]
  have hlen : (spacesN w₁ ++ r).length - r.length = w₁ := by
    simp [spacesN]
  simp only [adjustIndentLine, hts, hlen]
  rw [if_pos (le_refl w₁), Nat.sub_self, Nat.add_zero]

/-- Unfolding of replace_with_normalization on a normalized match. -/
theorem replace_with_normalization_norm_eq (content search rep : Str) (w : String) (ln : Nat)
    (hfind : find_with_normalization content search = .normalizedMatch w ln) :
    replace_with_normalization content search rep
      = match findSub content (extract_lines content ln (rsLines search).length) with
        | some pos =>
          some (content.take pos
            ++ (if ((rsLines (extract_lines content ln (rsLines search).length)).headD []).length
                  - (rsTrimStart
                      ((rsLines (extract_lines content ln (rsLines search).length)).headD
                        [])).length
                  ≠ ((rsLines search).headD []).length
                    - (rsTrimStart ((rsLines search).headD [])).length
                then adjustIndent rep
                  (((rsLines search).headD []).length
                    - (rsTrimStart ((rsLines search).headD [])).length)
                  (((rsLines (extract_lines content ln (rsLines search).length)).headD []).length
                    - (rsTrimStart
                        ((rsLines (extract_lines content ln (rsLines search).length)).headD
                          [])).length)
                else rep)
            ++ content.drop (pos + (extract_lines content ln (rsLines search).length).length), w)
        | none => none := by
  rw [replace_with_normalization, hfind]

/-- C3: for a file made of arbitrary lines around a block of 16-space-indented
clean body lines, and a Replace edit whose search is the same block with
14-space indentation (and a replacement with 14-space indentation), when
normalized matching locates the block at its line, the Replace succeeds, its
message notes an indentation adjustment, and the replacement is written with
the file's 16-space indentation. -/
theorem replace_block_keeps_indent (path : String) (w : String)
    (pre post bodies reps : List Str)
    (hbne : bodies ≠ []) (hrne : reps ≠ [])
    (hnlb : ∀ b ∈ bodies, '\n' ∉ b) (hcrb : ∀ b ∈ bodies, '\r' ∉ b)
    (htb : ∀ b ∈ bodies, rsTrimStart b = b)
    (hnlr : ∀ r ∈ reps, '\n' ∉ r) (hcrr : ∀ r ∈ reps, '\r' ∉ r)
    (htr : ∀ r ∈ reps, rsTrimStart r = r)
    (hnlp : ∀ l ∈ pre ++ post, '\n' ∉ l) (hcrp : ∀ l ∈ pre ++ post, '\r' ∉ l)
    (hlast : (pre ++ bodies.map (fun b => spacesN 16 ++ b) ++ post).getLast? ≠ some [])
    (hfind : find_with_normalization
        (joinNl (pre ++ bodies.map (fun b => spacesN 16 ++ b) ++ post))
        (joinNl (bodies.map (fun b => spacesN 14 ++ b)))
      = .normalizedMatch w (pre.length + 1)) :
    ∃ pos, findSub (joinNl (pre ++ bodies.map (fun b => spacesN 16 ++ b) ++ post))
        (joinNl (bodies.map (fun b => spacesN 16 ++ b))) = some pos ∧
      replaceCore path (joinNl (pre ++ bodies.map (fun b => spacesN 16 ++ b) ++ post))
          (joinNl (bodies.map (fun b => spacesN 14 ++ b)))
          (joinNl (reps.map (fun b => spacesN 14 ++ b)))
        = .ok (.write
            ((joinNl (pre ++ bodies.map (fun b => spacesN 16 ++ b) ++ post)).take pos
              ++ joinNl (reps.map (fun b => spacesN 16 ++ b))
              ++ (joinNl (pre ++ bodies.map (fun b => spacesN 16 ++ b) ++ post)).drop
                  (pos + (joinNl (bodies.map (fun b => spacesN 16 ++ b))).length)),
            "Replaced with indentation adjustment (" ++ w ++ ")") ∧
      strContainsB ("Replaced with indentation adjustment (" ++ w ++ ")")
        "indentation adjustment" = true := by
  obtain ⟨b0, brest, rfl⟩ : ∃ b0 brest, bodies = b0 :: brest := by
    cases bodies with
    | nil => exact absurd rfl hbne
    | cons a r => exact ⟨a, r, rfl⟩
  have hsl : rsLines (joinNl ((b0 :: brest).map (fun b => spacesN 14 ++ b)))
      = (b0 :: brest).map (fun b => spacesN 14 ++ b) :=
    rsLines_indent_block 14 (by omega) _ (by simp) hnlb hcrb
  have hal : rsLines (joinNl ((b0 :: brest).map (fun b => spacesN 16 ++ b)))
      = (b0 :: brest).map (fun b => spacesN 16 ++ b) :=
    rsLines_indent_block 16 (by omega) _ (by simp) hnlb hcrb
  have hcl : rsLines (joinNl (pre ++ (b0 :: brest).map (fun b => spacesN 16 ++ b) ++ post))
      = pre ++ (b0 :: brest).map (fun b => spacesN 16 ++ b) ++ post := by
    apply rsLines_joinNl
    · simp
    · intro l hl
      rcases List.mem_append.mp hl with hl1 | hl2
      · rcases List.mem_append.mp hl1 with hp | hm
        · exact hnlp l (List.mem_append.mpr (Or.inl hp))
        · obtain ⟨b, hb, rfl⟩ := List.mem_map.mp hm
          intro hmem
          rcases List.mem_append.mp hmem with hs | hs
          · exact absurd (List.eq_of_mem_replicate hs) (by decide)
          · exact hnlb b hb hs
      · exact hnlp l (List.mem_append.mpr (Or.inr hl2))
    · intro l hl
      rcases List.mem_append.mp hl with hl1 | hl2
      · rcases List.mem_append.mp hl1 with hp | hm
        · exact hcrp l (List.mem_append.mpr (Or.inl hp))
        · obtain ⟨b, hb, rfl⟩ := List.mem_map.mp hm
          intro hmem
          rcases List.mem_append.mp hmem with hs | hs
          · exact absurd (List.eq_of_mem_replicate hs) (by decide)
          · exact hcrb b hb hs
      · exact hcrp l (List.mem_append.mpr (Or.inr hl2))
    · exact hlast
  have hsne : joinNl ((b0 :: brest).map (fun b => spacesN 14 ++ b)) ≠ [] := by
    apply content_ne_nil_of_lines
    rw [hsl]
    simp
  have hfs : findSub (joinNl (pre ++ (b0 :: brest).map (fun b => spacesN 16 ++ b) ++ post))
      (joinNl ((b0 :: brest).map (fun b => spacesN 14 ++ b))) = none := by
    cases hq : findSub (joinNl (pre ++ (b0 :: brest).map (fun b => spacesN 16 ++ b) ++ post))
        (joinNl ((b0 :: brest).map (fun b => spacesN 14 ++ b))) with
    | none => rfl
    | some p =>
      rw [find_with_normalization, hq] at hfind
      exact FindResult.noConfusion hfind
  have hcount : count_occurrences
      (joinNl (pre ++ (b0 :: brest).map (fun b => spacesN 16 ++ b) ++ post))
      (joinNl ((b0 :: brest).map (fun b => spacesN 14 ++ b))) = 0 := by
    rw [count_occurrences, if_neg hsne]
    by_contra hpos
    have hsome := countNE_pos_findSub _ hsne _ (Nat.pos_of_ne_zero hpos)
    rw [hfs] at hsome
    simp at hsome
  have hinf : joinNl ((b0 :: brest).map (fun b => spacesN 16 ++ b))
      <:+: joinNl (pre ++ (b0 :: brest).map (fun b => spacesN 16 ++ b) ++ post) := by
    rw [List.append_assoc, joinNl_append pre _ (by simp)]
    cases post with
    | nil =>
      rw [List.append_nil]
      exact ⟨joinNl pre ++ (if pre = [] then [] else ['\n']), [], by simp⟩
    | cons p0 prest =>
      rw [joinNl_append _ (p0 :: prest) (by simp),
        if_neg (show ¬(List.map (fun b => spacesN 16 ++ b) (b0 :: brest) = []) by simp)]
      exact ⟨joinNl pre ++ (if pre = [] then [] else ['\n']),
        '\n' :: joinNl (p0 :: prest), by simp⟩
  obtain ⟨pos, hpos⟩ := Option.isSome_iff_exists.mp ((findSub_isSome_iff _ _).mpr hinf)
  have hA : extract_lines (joinNl (pre ++ (b0 :: brest).map (fun b => spacesN 16 ++ b) ++ post))
      (pre.length + 1) (rsLines (joinNl ((b0 :: brest).map (fun b => spacesN 14 ++ b)))).length
      = joinNl ((b0 :: brest).map (fun b => spacesN 16 ++ b)) := by
    rw [extract_lines, hcl, hsl, List.length_map, Nat.add_sub_cancel]
    congr 1
    rw [List.append_assoc, List.drop_left]
    exact List.take_left' (by simp)
  have hsi : ((rsLines (joinNl ((b0 :: brest).map (fun b => spacesN 14 ++ b)))).headD []).length
      - (rsTrimStart
          ((rsLines (joinNl ((b0 :: brest).map (fun b => spacesN 14 ++ b)))).headD [])).length
      = 14 := by
    rw [hsl]
    show (spacesN 14 ++ b0).length - (rsTrimStart (spacesN 14 ++ b0)).length = 14
    rw [rsTrimStart_spaces, htb b0 (by simp)]
    simp [spacesN]
    omega
  have hai : ((rsLines (joinNl ((b0 :: brest).map (fun b => spacesN 16 ++ b)))).headD []).length
      - (rsTrimStart
          ((rsLines (joinNl ((b0 :: brest).map (fun b => spacesN 16 ++ b)))).headD [])).length
      = 16 := by
    rw [hal]
    show (spacesN 16 ++ b0).length - (rsTrimStart (spacesN 16 ++ b0)).length = 16
    rw [rsTrimStart_spaces, htb b0 (by simp)]
    simp [spacesN]
    omega
  refine ⟨pos, hpos, ?_,
    strContainsB_append_left _ _ _ (strContainsB_append_left _ _ _ (by decide))⟩
  rw [replaceCore, if_neg hsne, if_neg (by omega)]
  rw [replace_with_normalization_norm_eq _ _ _ w (pre.length + 1) hfind]
  rw [hA, hpos, hsi, hai, if_pos (by omega : (16 : Nat) ≠ 14)]
  rw [adjustIndent_block 14 16 (by omega) reps hrne hnlr hcrr htr]

/-- C3 counterexample: for the single-line block "x = 1" indented 16 spaces and
a 14-space search, the 14-space line is an exact substring of the 16-space line,
so Replace succeeds through the exact stage: the file does retain 16-space
indentation, but the message is plain "Replaced 1 occurrence" and does not note
any indentation adjustment. -/
theorem replace_block_message_cex :
    replaceCore "f"
        (joinNl ([strOf "def f():"]
          ++ ([strOf "x = 1"]).map (fun b => spacesN 16 ++ b) ++ []))
        (joinNl (([strOf "x = 1"]).map (fun b => spacesN 14 ++ b)))
        (joinNl (([strOf "x = 2"]).map (fun b => spacesN 14 ++ b)))
      = .ok (.write (strOf "def f():" ++ '\n' :: (spacesN 16 ++ strOf "x = 2")),
          "Replaced 1 occurrence (line 2)") ∧
    strContainsB "Replaced 1 occurrence (line 2)" "indentation adjustment" = false := by
  decide

/-- C3 witness: the 16-versus-14-space scenario on a concrete two-line block. -/
theorem replace_block_keeps_indent_witness :
    ∃ pos, findSub (joinNl ([strOf "def f():"]
          ++ ([strOf "if x:", strOf "y = 1"]).map (fun b => spacesN 16 ++ b) ++ []))
        (joinNl (([strOf "if x:", strOf "y = 1"]).map (fun b => spacesN 16 ++ b)))
        = some pos ∧
      replaceCore "f" (joinNl ([strOf "def f():"]
            ++ ([strOf "if x:", strOf "y = 1"]).map (fun b => spacesN 16 ++ b) ++ []))
          (joinNl (([strOf "if x:", strOf "y = 1"]).map (fun b => spacesN 14 ++ b)))
          (joinNl (([strOf "if x:", strOf "y = 2"]).map (fun b => spacesN 14 ++ b)))
        = .ok (.write
            ((joinNl ([strOf "def f():"]
                ++ ([strOf "if x:", strOf "y = 1"]).map (fun b => spacesN 16 ++ b) ++ [])).take pos
              ++ joinNl (([strOf "if x:", strOf "y = 2"]).map (fun b => spacesN 16 ++ b))
              ++ (joinNl ([strOf "def f():"]
                  ++ ([strOf "if x:", strOf "y = 1"]).map (fun b => spacesN 16 ++ b) ++ [])).drop
                  (pos + (joinNl (([strOf "if x:", strOf "y = 1"]).map
                      (fun b => spacesN 16 ++ b))).length)),
            "Replaced with indentation adjustment (" ++ normWarning 2 ++ ")") ∧
      strContainsB ("Replaced with indentation adjustment (" ++ normWarning 2 ++ ")")
        "indentation adjustment" = true :=
  replace_block_keeps_indent "f" (normWarning 2)
    [strOf "def f():"] [] [strOf "if x:", strOf "y = 1"] [strOf "if x:", strOf "y = 2"]
    (by decide) (by decide) (by decide) (by decide) (by decide) (by decide) (by decide)
    (by decide) (by decide) (by decide) (by decide) (by decide)

/-- The outcome wrapper always records the given index. -/
theorem outcomeOf_idx (i : Nat) (p t : String) (x : Except EditError String) :
    (outcomeOf i p t x).idx = i := by
  cases x with
  | ok m => rfl
  | error e => cases e <;> rfl

/-- The outcome wrapper always records the given path. -/
theorem outcomeOf_pathOf (i : Nat) (p t : String) (x : Except EditError String) :
    (outcomeOf i p t x).pathOf = p := by
  cases x with
  | ok m => rfl
  | error e => cases e <;> rfl

/-- apply_edit records the running index in its outcome. -/
theorem applyEditTx_idx (st : TxState) (e : Edit) (i : Nat) (d : Bool) :
    (applyEditTx st e i d).2.idx = i := by
  cases d
  · exact outcomeOf_idx i e.path e.type_name _
  · exact outcomeOf_idx i e.path e.type_name _

/-- apply_edit records the edit's path in its outcome. -/
theorem applyEditTx_pathOf (st : TxState) (e : Edit) (i : Nat) (d : Bool) :
    (applyEditTx st e i d).2.pathOf = e.path := by
  cases d
  · exact outcomeOf_pathOf i e.path e.type_name _
  · exact outcomeOf_pathOf i e.path e.type_name _

/-- add_outcome increments applied exactly on successes. -/
theorem add_outcome_applied (r : ApplyResult) (o : EditOutcome) :
    (r.add_outcome o).applied = r.applied + (if o.isSuccess then 1 else 0) := by
  rw [ApplyResult.add_outcome]
  by_cases h : o.isSuccess = true <;> simp [h]

/-- add_outcome increments failed exactly on failures. -/
theorem add_outcome_failed (r : ApplyResult) (o : EditOutcome) :
    (r.add_outcome o).failed = r.failed + (if o.isSuccess then 0 else 1) := by
  rw [ApplyResult.add_outcome]
  by_cases h : o.isSuccess = true <;> simp [h]

/-- A boolean filter and its negation split a list's length. -/
theorem filter_length_split (f : EditOutcome → Bool) (t : List EditOutcome) :
    (t.filter f).length + (t.filter (fun o => !f o)).length = t.length := by
  induction t with
  | nil => rfl
  | cons a l ih =>
    rw [List.filter_cons, List.filter_cons]
    by_cases h : f a = true <;> simp [h] <;> omega

/-- One-step unfolding of the transaction loop. -/
theorem applyLoop_cons_eq (d p : Bool) (st : TxState) (i : Nat) (acc : ApplyResult)
    (e : Edit) (rest : List Edit) :
    applyLoop d p st i acc (e :: rest)
      = if (applyEditTx st e i d).2.isSuccess = false ∧ p = false ∧ d = false
        then ((applyEditTx st e i d).1, acc.add_outcome (applyEditTx st e i d).2, true)
        else applyLoop d p (applyEditTx st e i d).1 (i + 1)
            (acc.add_outcome (applyEditTx st e i d).2) rest := by
  simp only [applyLoop]

/-- Shape of the outcomes accumulated by the transaction loop: they extend the
accumulator in input order with consecutive indices and the edits' paths,
never outnumber the remaining edits, exhaust them in partial or dry-run mode,
and in atomic non-dry mode only the last outcome can be a failure, a fully
successful run exhausting the batch. -/
theorem applyLoop_outcomes_shape (d p : Bool) :
    ∀ (es : List Edit) (st : TxState) (i : Nat) (acc : ApplyResult),
    ∃ t : List EditOutcome,
      (applyLoop d p st i acc es).2.1.edits = acc.edits ++ t ∧
      (applyLoop d p st i acc es).2.1.applied
        = acc.applied + (t.filter (fun o => o.isSuccess)).length ∧
      (applyLoop d p st i acc es).2.1.failed
        = acc.failed + (t.filter (fun o => !o.isSuccess)).length ∧
      t.map EditOutcome.idx = List.range' i t.length ∧
      t.map EditOutcome.pathOf = (es.take t.length).map Edit.path ∧
      t.length ≤ es.length ∧
      ((p = true ∨ d = true) → t.length = es.length) ∧
      (p = false → d = false → (∀ o ∈ t.dropLast, o.isSuccess = true) ∧
        ((∀ o ∈ t, o.isSuccess = true) → t.length = es.length)) := by
  intro es
  induction es with
  | nil =>
    intro st i acc
    exact ⟨[], by simp [applyLoop], by simp [applyLoop], by simp [applyLoop],
      rfl, rfl, Nat.le_refl 0, fun _ => rfl, fun _ _ => ⟨by simp, fun _ => rfl⟩⟩
  | cons e rest ih =>
    intro st i acc
    rw [applyLoop_cons_eq]
    have hidx : ((applyEditTx st e i d).2).idx = i := applyEditTx_idx st e i d
    have hpath : ((applyEditTx st e i d).2).pathOf = e.path := applyEditTx_pathOf st e i d
    by_cases hg : ((applyEditTx st e i d).2.isSuccess = false ∧ p = false ∧ d = false)
    · rw [if_pos hg]
      refine ⟨[(applyEditTx st e i d).2], add_outcome_edits acc _, ?_, ?_, ?_, ?_, ?_, ?_, ?_⟩
      · rw [add_outcome_applied]
        simp [List.filter_cons, hg.1]
      · rw [add_outcome_failed]
        simp [List.filter_cons, hg.1]
      · simp [hidx, List.range'_one]
      · simp [hpath]
      · simp
      · intro hpd
        rcases hpd with h | h <;> simp [h] at hg
      · intro _ _
        refine ⟨by simp, fun hall => ?_⟩
        exact absurd (hall (applyEditTx st e i d).2 (by simp)) (by simp [hg.1])
    · rw [if_neg hg]
      obtain ⟨t', h1, h2, h3, h4, h5, h6, h7, h8⟩ :=
        ih (applyEditTx st e i d).1 (i + 1) (acc.add_outcome (applyEditTx st e i d).2)
      refine ⟨(applyEditTx st e i d).2 :: t', ?_, ?_, ?_, ?_, ?_, ?_, ?_, ?_⟩
      · rw [h1, add_outcome_edits, List.append_assoc]
        rfl
      · rw [h2, add_outcome_applied, List.filter_cons]
        by_cases hs : (applyEditTx st e i d).2.isSuccess = true <;> simp [hs] <;> omega
      · rw [h3, add_outcome_failed, List.filter_cons]
        by_cases hs : (applyEditTx st e i d).2.isSuccess = true <;> simp [hs] <;> omega
      · rw [List.map_cons, hidx, h4, List.length_cons, List.range'_succ]
      · rw [List.map_cons, hpath, h5, List.length_cons, List.take_succ_cons, List.map_cons]
      · rw [List.length_cons, List.length_cons]
        omega
      · intro hpd
        rw [List.length_cons, List.length_cons, h7 hpd]
      · intro hp hd
        have hs : (applyEditTx st e i d).2.isSuccess = true := by
          by_contra hq
          exact hg ⟨by simpa using hq, hp, hd⟩
        obtain ⟨h8a, h8b⟩ := h8 hp hd
        refine ⟨?_, ?_⟩
        · intro x hx
          cases t' with
          | nil => simp at hx
          | cons a l =>
            rw [List.dropLast_cons₂] at hx
            rcases List.mem_cons.mp hx with rfl | hx2
            · exact hs
            · exact h8a x hx2
        · intro hall
          rw [List.length_cons, List.length_cons,
            h8b (fun x hx => hall x (List.mem_cons_of_mem _ hx))]

/-- C2: the edits list of the returned ApplyResult lists one outcome per
attempted edit, in input order (indices 0,1,2,... and the input edits' paths),
with applied + failed equal to its length; it never exceeds the batch, in
partial or dry-run mode it covers the whole batch, and in atomic non-dry mode
every outcome before the last is a success and a fully successful list covers
the whole batch (a failure stops the loop, so outcomes past it are never
produced). -/
theorem apply_with_transaction_outcomes_shape (fs : FS) (edits : List Edit)
    (dryRun partialMode : Bool) :
    ((apply_with_transaction fs edits dryRun partialMode).2.edits.map EditOutcome.idx
      = List.range (apply_with_transaction fs edits dryRun partialMode).2.edits.length) ∧
    ((apply_with_transaction fs edits dryRun partialMode).2.edits.map EditOutcome.pathOf
      = (edits.take
          (apply_with_transaction fs edits dryRun partialMode).2.edits.length).map Edit.path) ∧
    (apply_with_transaction fs edits dryRun partialMode).2.applied
        + (apply_with_transaction fs edits dryRun partialMode).2.failed
      = (apply_with_transaction fs edits dryRun partialMode).2.edits.length ∧
    (apply_with_transaction fs edits dryRun partialMode).2.edits.length ≤ edits.length ∧
    ((partialMode = true ∨ dryRun = true) →
      (apply_with_transaction fs edits dryRun partialMode).2.edits.length = edits.length) ∧
    (partialMode = false → dryRun = false →
      (∀ o ∈ (apply_with_transaction fs edits dryRun partialMode).2.edits.dropLast,
        o.isSuccess = true) ∧
      ((∀ o ∈ (apply_with_transaction fs edits dryRun partialMode).2.edits,
          o.isSuccess = true) →
        (apply_with_transaction fs edits dryRun partialMode).2.edits.length = edits.length)) := by
  obtain ⟨t, h1, h2, h3, h4, h5, h6, h7, h8⟩ :=
    applyLoop_outcomes_shape dryRun partialMode edits ⟨fs, []⟩ 0 ApplyResult.new
  have he : (apply_with_transaction fs edits dryRun partialMode).2.edits = t := by
    show (applyLoop dryRun partialMode ⟨fs, []⟩ 0 ApplyResult.new edits).2.1.edits = t
    rw [h1]
    rfl
  have hap : (apply_with_transaction fs edits dryRun partialMode).2.applied
      = (t.filter (fun o => o.isSuccess)).length := by
    show (applyLoop dryRun partialMode ⟨fs, []⟩ 0 ApplyResult.new edits).2.1.applied = _
    rw [h2]
    simp [ApplyResult.new]
  have hfl : (apply_with_transaction fs edits dryRun partialMode).2.failed
      = (t.filter (fun o => !o.isSuccess)).length := by
    show (applyLoop dryRun partialMode ⟨fs, []⟩ 0 ApplyResult.new edits).2.1.failed = _
    rw [h3]
    simp [ApplyResult.new]
  rw [he, hap, hfl]
  exact ⟨by rw [h4, List.range_eq_range'], h5, filter_length_split _ t, h6, h7, h8⟩

/-- Filtering out a key leaves lookups of other keys unchanged. -/
theorem fsGet_filter_ne (fs : FS) (p q : String) (hpq : p ≠ q) :
    fsGet (fs.filter (fun e => e.1 != p)) q = fsGet fs q := by
  induction fs with
  | nil => rfl
  | cons a t ih =>
    rw [List.filter_cons]
    by_cases ha : a.1 = p
    · rw [if_neg (by simp [ha])]
      rw [ih, fsGet, if_neg (by rw [ha]; exact hpq)]
    · rw [if_pos (by simp [ha])]
      rw [fsGet, fsGet]
      by_cases haq : a.1 = q
      · rw [if_pos haq, if_pos haq]
      · rw [if_neg haq, if_neg haq, ih]

/-- Filtering out a key removes it from lookups. -/
theorem fsGet_filter_self (fs : FS) (p : String) :
    fsGet (fs.filter (fun e => e.1 != p)) p = none := by
  induction fs with
  | nil => rfl
  | cons a t ih =>
    rw [List.filter_cons]
    by_cases ha : a.1 = p
    · rw [if_neg (by simp [ha])]
      exact ih
    · rw [if_pos (by simp [ha])]
      rw [fsGet, if_neg ha]
      exact ih

/-- Lookup after a write. -/
theorem fsGet_fsSet (fs : FS) (p q : String) (v : Str) :
    fsGet (fsSet fs p v) q = if p = q then some v else fsGet fs q := by
  show (if p = q then some v else fsGet (fs.filter (fun e => e.1 != p)) q)
      = if p = q then some v else fsGet fs q
  by_cases h : p = q
  · rw [if_pos h, if_pos h]
  · rw [if_neg h, if_neg h, fsGet_filter_ne fs p q h]

/-- Lookup after a removal. -/
theorem fsGet_fsRemove (fs : FS) (p q : String) :
    fsGet (fsRemove fs p) q = if p = q then none else fsGet fs q := by
  by_cases h : p = q
  · rw [if_pos h, ← h]
    exact fsGet_filter_self fs p
  · rw [if_neg h]
    exact fsGet_filter_ne fs p q h

/-- One edit only ever touches its own path on the filesystem. -/
theorem applyEditFS_frame (fs : FS) (e : Edit) (q : String) (hq : q ≠ e.path) :
    fsGet (applyEditFS fs e).1 q = fsGet fs q := by
  rw [applyEditFS]
  cases hc : applyCore fs e with
  | error err => rfl
  | ok wm =>
    obtain ⟨w, m⟩ := wm
    cases w with
    | keep => rfl
    | write c =>
      show fsGet (fsSet fs e.path c) q = fsGet fs q
      rw [fsGet_fsSet, if_neg (fun hh => hq hh.symm)]
    | removeFile =>
      show fsGet (fsRemove fs e.path) q = fsGet fs q
      rw [fsGet_fsRemove, if_neg (fun hh => hq hh.symm)]

/-- Rolling back entries of other keys leaves a lookup unchanged. -/
theorem foldl_restore_not_mem (bs : List (String × Option Str)) (fs : FS) (q : String)
    (hq : ∀ b ∈ bs, b.1 ≠ q) :
    fsGet (bs.foldl restoreOne fs) q = fsGet fs q := by
  induction bs generalizing fs with
  | nil => rfl
  | cons b t ih =>
    rw [List.foldl_cons, ih _ (fun x hx => hq x (List.mem_cons_of_mem b hx))]
    rw [restoreOne]
    cases hb : b.2 with
    | some c =>
      rw [fsGet_fsSet, if_neg (hq b (by simp))]
    | none =>
      rw [fsGet_fsRemove, if_neg (hq b (by simp))]

/-- Rolling back a backup set restores the recorded snapshot of a key that
occurs once. -/
theorem foldl_restore_mem (bs1 bs2 : List (String × Option Str)) (q : String)
    (snap : Option Str) (fs : FS) (h2 : ∀ b ∈ bs2, b.1 ≠ q) :
    fsGet ((bs1 ++ (q, snap) :: bs2).foldl restoreOne fs) q = snap := by
  rw [List.foldl_append, List.foldl_cons, foldl_restore_not_mem bs2 _ q h2]
  cases snap with
  | some c =>
    show fsGet (fsSet _ q c) q = some c
    rw [fsGet_fsSet, if_pos rfl]
  | none =>
    show fsGet (fsRemove _ q) q = none
    rw [fsGet_fsRemove, if_pos rfl]

/-- A missing backup key is absent from the backup set. -/
theorem backupLookup_none_not_mem (bs : List (String × Option Str)) (p : String)
    (h : backupLookup bs p = none) : ∀ b ∈ bs, b.1 ≠ p := by
  induction bs with
  | nil =>
    intro b hb
    simp at hb
  | cons a t ih =>
    rw [backupLookup] at h
    by_cases ha : a.1 = p
    · rw [if_pos ha] at h
      cases h
    · rw [if_neg ha] at h
      intro b hb
      rcases List.mem_cons.mp hb with rfl | hb2
      · exact ha
      · exact ih h b hb2

/-- A present backup key has an entry in the backup set. -/
theorem backupLookup_isSome_mem (bs : List (String × Option Str)) (p : String)
    (h : (backupLookup bs p).isSome = true) : ∃ b ∈ bs, b.1 = p := by
  induction bs with
  | nil => simp [backupLookup] at h
  | cons a t ih =>
    rw [backupLookup] at h
    by_cases ha : a.1 = p
    · exact ⟨a, by simp, ha⟩
    · rw [if_neg ha] at h
      obtain ⟨b, hb, hbp⟩ := ih h
      exact ⟨b, List.mem_cons_of_mem a hb, hbp⟩

/-- backup_file never changes the filesystem. -/
theorem backupFile_fs (st : TxState) (p : String) : (backupFile st p).fs = st.fs := by
  rw [backupFile]
  by_cases h : (backupLookup st.backups p).isSome = true
  · rw [if_pos h]
  · rw [if_neg h]

/-- backup_file preserves existing backup entries. -/
theorem backupFile_subset (st : TxState) (p : String) :
    ∀ b ∈ st.backups, b ∈ (backupFile st p).backups := by
  intro b hb
  rw [backupFile]
  by_cases h : (backupLookup st.backups p).isSome = true
  · rw [if_pos h]
    exact hb
  · rw [if_neg h]
    exact List.mem_append.mpr (Or.inl hb)

/-- After backup_file, the path has an entry in the backup set. -/
theorem backupFile_mem (st : TxState) (p : String) :
    ∃ b ∈ (backupFile st p).backups, b.1 = p := by
  rw [backupFile]
  by_cases h : (backupLookup st.backups p).isSome = true
  · rw [if_pos h]
    exact backupLookup_isSome_mem st.backups p h
  · rw [if_neg h]
    exact ⟨(p, fsGet st.fs p), List.mem_append.mpr (Or.inr (by simp)), rfl⟩

/-- One non-dry transaction step preserves the backup invariants: snapshots
hold original content, paths without a backup entry are untouched on disk, and
backup keys stay distinct. -/
theorem backup_apply_inv (fs₀ : FS) (st : TxState) (e : Edit)
    (hb : ∀ b ∈ st.backups, b.2 = fsGet fs₀ b.1)
    (hf : ∀ q, (∀ b ∈ st.backups, b.1 ≠ q) → fsGet st.fs q = fsGet fs₀ q)
    (hnd : (st.backups.map Prod.fst).Nodup) :
    (∀ b ∈ (backupFile st e.path).backups, b.2 = fsGet fs₀ b.1) ∧
    (∀ q, (∀ b ∈ (backupFile st e.path).backups, b.1 ≠ q) →
      fsGet (applyEditFS (backupFile st e.path).fs e).1 q = fsGet fs₀ q) ∧
    ((backupFile st e.path).backups.map Prod.fst).Nodup := by
  refine ⟨?_, ?_, ?_⟩
  · rw [backupFile]
    by_cases h : (backupLookup st.backups e.path).isSome = true
    · rw [if_pos h]
      exact hb
    · rw [if_neg h]
      intro b hbmem
      rcases List.mem_append.mp hbmem with h1 | h2
      · exact hb b h1
      · obtain rfl := List.mem_singleton.mp h2
        show fsGet st.fs e.path = fsGet fs₀ e.path
        exact hf e.path
          (backupLookup_none_not_mem st.backups e.path (by simpa using h))
  · intro q hq
    have hqp : q ≠ e.path := by
      obtain ⟨b, hbm, hbp⟩ := backupFile_mem st e.path
      intro hqe
      exact hq b hbm (hbp.trans hqe.symm)
    rw [applyEditFS_frame _ _ _ hqp, backupFile_fs]
    exact hf q (fun b hbm => hq b (backupFile_subset st e.path b hbm))
  · rw [backupFile]
    by_cases h : (backupLookup st.backups e.path).isSome = true
    · rw [if_pos h]
      exact hnd
    · rw [if_neg h]
      rw [List.map_append, List.nodup_append]
      refine ⟨hnd, List.nodup_singleton _, ?_⟩
      intro a ha hain
      obtain rfl := List.mem_singleton.mp hain
      obtain ⟨b, hbm, hba⟩ := List.mem_map.mp ha
      exact backupLookup_none_not_mem st.backups e.path (by simpa using h) b hbm hba

/-- The non-dry transaction loop maintains the backup invariants from any
state that satisfies them. -/
theorem applyLoop_state_inv (p : Bool) (fs₀ : FS) :
    ∀ (es : List Edit) (st : TxState) (i : Nat) (acc : ApplyResult),
    (∀ b ∈ st.backups, b.2 = fsGet fs₀ b.1) →
    (∀ q, (∀ b ∈ st.backups, b.1 ≠ q) → fsGet st.fs q = fsGet fs₀ q) →
    ((st.backups.map Prod.fst).Nodup) →
    (∀ b ∈ (applyLoop false p st i acc es).1.backups, b.2 = fsGet fs₀ b.1) ∧
    (∀ q, (∀ b ∈ (applyLoop false p st i acc es).1.backups, b.1 ≠ q) →
      fsGet (applyLoop false p st i acc es).1.fs q = fsGet fs₀ q) ∧
    (((applyLoop false p st i acc es).1.backups.map Prod.fst).Nodup) := by
  intro es
  induction es with
  | nil =>
    intro st i acc hb hf hnd
    exact ⟨hb, hf, hnd⟩
  | cons e rest ih =>
    intro st i acc hb hf hnd
    obtain ⟨hb1, hf1, hnd1⟩ := backup_apply_inv fs₀ st e hb hf hnd
    rw [applyLoop_cons_eq]
    by_cases hg : ((applyEditTx st e i false).2.isSuccess = false ∧ p = false ∧ false = false)
    · rw [if_pos hg]
      exact ⟨hb1, hf1, hnd1⟩
    · rw [if_neg hg]
      exact ih (applyEditTx st e i false).1 (i + 1) _ hb1 hf1 hnd1

/-- Rolling back a transaction state satisfying the backup invariants yields
the original content at every path. -/
theorem rollbackFS_restores (fs₀ : FS) (st : TxState)
    (hb : ∀ b ∈ st.backups, b.2 = fsGet fs₀ b.1)
    (hf : ∀ q, (∀ b ∈ st.backups, b.1 ≠ q) → fsGet st.fs q = fsGet fs₀ q)
    (hnd : (st.backups.map Prod.fst).Nodup) :
    ∀ q, fsGet (rollbackFS st) q = fsGet fs₀ q := by
  intro q
  by_cases hq : ∀ b ∈ st.backups, b.1 ≠ q
  · rw [rollbackFS, foldl_restore_not_mem _ _ _ hq]
    exact hf q hq
  · push_neg at hq
    obtain ⟨b, hbmem, hbq⟩ := hq
    obtain ⟨bk, bv⟩ := b
    simp only at hbq
    subst hbq
    obtain ⟨bs1, bs2, hsplit⟩ := List.append_of_mem hbmem
    have hb2 : ∀ x ∈ bs2, x.1 ≠ bk := by
      rw [hsplit, List.map_append, List.map_cons] at hnd
      have hmid := (List.nodup_append.mp hnd).2.1
      have hnotin := (List.nodup_cons.mp hmid).1
      intro x hx hxq
      have hxm : x.1 ∈ bs2.map Prod.fst := List.mem_map_of_mem Prod.fst hx
      rw [hxq] at hxm
      exact hnotin hxm
    rw [rollbackFS, hsplit, foldl_restore_mem bs1 bs2 bk bv st.fs hb2]
    exact hb (bk, bv) hbmem

/-- add_outcome keeps success only on successful outcomes. -/
theorem add_outcome_success (r : ApplyResult) (o : EditOutcome) :
    (r.add_outcome o).success = if o.isSuccess then r.success else false := by
  rw [ApplyResult.add_outcome]
  by_cases h : o.isSuccess = true <;> simp [h]

/-- In atomic non-dry mode, a failed result means the loop ended in a
rollback. -/
theorem applyLoop_atomic_failure_rollback (es : List Edit) :
    ∀ (st : TxState) (i : Nat) (acc : ApplyResult), acc.success = true →
    (applyLoop false false st i acc es).2.1.success = false →
    (applyLoop false false st i acc es).2.2 = true := by
  induction es with
  | nil =>
    intro st i acc hacc h
    rw [show (applyLoop false false st i acc []).2.1 = acc from rfl, hacc] at h
    cases h
  | cons e rest ih =>
    intro st i acc hacc h
    rw [applyLoop_cons_eq] at h ⊢
    by_cases hg : ((applyEditTx st e i false).2.isSuccess = false ∧ false = false ∧ false = false)
    · rw [if_pos hg]
    · rw [if_neg hg] at h ⊢
      have hs : (applyEditTx st e i false).2.isSuccess = true := by
        by_contra hq
        exact hg ⟨by simpa using hq, rfl, rfl⟩
      refine ih _ _ _ ?_ h
      rw [add_outcome_success, if_pos hs]
      exact hacc

/-- C1: a batch run in atomic mode (partial = false, dry_run = false) whose
result reports a failure leaves every path of the filesystem exactly as it was
before the run; in particular every backed-up path's snapshot equals the
original content (the None sentinel for files that did not exist) and is what
the path holds after the run. -/
theorem apply_with_transaction_atomic_rollback (fs : FS) (edits : List Edit)
    (h : (apply_with_transaction fs edits false false).2.success = false) :
    (∀ q, fsGet (apply_with_transaction fs edits false false).1 q = fsGet fs q) ∧
    (∀ b ∈ (applyLoop false false ⟨fs, []⟩ 0 ApplyResult.new edits).1.backups,
      b.2 = fsGet fs b.1 ∧
      fsGet (apply_with_transaction fs edits false false).1 b.1 = b.2) := by
  have hrb : (applyLoop false false ⟨fs, []⟩ 0 ApplyResult.new edits).2.2 = true :=
    applyLoop_atomic_failure_rollback edits ⟨fs, []⟩ 0 ApplyResult.new rfl h
  obtain ⟨hb, hf, hnd⟩ := applyLoop_state_inv false fs edits ⟨fs, []⟩ 0 ApplyResult.new
    (by simp) (fun q _ => rfl) (by simp)
  have hall : ∀ q, fsGet (apply_with_transaction fs edits false false).1 q = fsGet fs q := by
    intro q
    show fsGet (if (applyLoop false false ⟨fs, []⟩ 0 ApplyResult.new edits).2.2
        then rollbackFS (applyLoop false false ⟨fs, []⟩ 0 ApplyResult.new edits).1
        else (applyLoop false false ⟨fs, []⟩ 0 ApplyResult.new edits).1.fs) q = fsGet fs q
    rw [hrb, if_pos rfl]
    exact rollbackFS_restores fs _ hb hf hnd q
  exact ⟨hall, fun b hbm => ⟨hb b hbm, (hall b.1).trans (hb b hbm).symm⟩⟩

/-- C1 witness: a create followed by a failing replace, in atomic mode, leaves
the original file intact and the created file absent. -/
theorem apply_with_transaction_atomic_rollback_witness :
    fsGet (apply_with_transaction [("a.txt", strOf "hello")]
        [Edit.create "b.txt" (strOf "x"), Edit.replace "a.txt" (strOf "zzz") (strOf "y")]
        false false).1 "a.txt" = some (strOf "hello") ∧
    fsGet (apply_with_transaction [("a.txt", strOf "hello")]
        [Edit.create "b.txt" (strOf "x"), Edit.replace "a.txt" (strOf "zzz") (strOf "y")]
        false false).1 "b.txt" = none := by
  constructor
  · rw [(apply_with_transaction_atomic_rollback [("a.txt", strOf "hello")]
      [Edit.create "b.txt" (strOf "x"), Edit.replace "a.txt" (strOf "zzz") (strOf "y")]
      (by decide)).1 "a.txt"]
    decide
  · rw [(apply_with_transaction_atomic_rollback [("a.txt", strOf "hello")]
      [Edit.create "b.txt" (strOf "x"), Edit.replace "a.txt" (strOf "zzz") (strOf "y")]
      (by decide)).1 "b.txt"]
    decide

end ApplyEdits
